import Mathlib

/-!
A verification development for `readgeom.py`, a molecular-file coordinate
extractor for Gaussian (.com/.log) and MOLPRO (.in/.out) files.

Strings are modelled as `List Char` (`Str`); file contents are ASCII text, so
one character stands for one byte.  Python `float` values are modelled by
`PyFloat` (an exact rational for finite values, plus infinities and NaN);
decimal literals parse to exact rationals rather than IEEE doubles, which is
faithful for all structural properties considered here.  Fallible Python
operations (`float(...)`, `int(...)`, guarded indexing) are modelled with
`Option`/`Except`; a `try`/`except` block that returns a default becomes the
corresponding total function.
-/

abbrev Str := List Char

def str (s : String) : Str := s.data

/-- Whitespace as recognised by Python's `str.strip`, `str.split()` and the
regex class `\s` on ASCII text. -/
def pyIsSpace (c : Char) : Bool :=
  c == ' ' || c == '\t' || c == '\n' || c == '\r' || c == '\x0b' || c == '\x0c'

def asciiLower (c : Char) : Char :=
  if 'A' ≤ c && c ≤ 'Z' then Char.ofNat (c.toNat + 32) else c

def asciiUpper (c : Char) : Char :=
  if 'a' ≤ c && c ≤ 'z' then Char.ofNat (c.toNat - 32) else c

def isAsciiLetter (c : Char) : Bool :=
  ('A' ≤ c && c ≤ 'Z') || ('a' ≤ c && c ≤ 'z')

def isAsciiAlnum (c : Char) : Bool := isAsciiLetter c || ('0' ≤ c && c ≤ '9')

def isDigitB (c : Char) : Bool := '0' ≤ c && c ≤ '9'

/-- Python `s.lstrip()`. -/
def pyLStrip (s : Str) : Str := s.dropWhile pyIsSpace

/-- Python `s.rstrip()`. -/
def pyRStrip (s : Str) : Str := (s.reverse.dropWhile pyIsSpace).reverse

/-- Python `s.strip()`. -/
def pyStrip (s : Str) : Str := pyLStrip (pyRStrip s)

/-- Split on every character satisfying `p`, keeping empty pieces
(the semantics of Python's `s.split(sep)` for a one-character `sep`). -/
def splitOnPred (p : Char → Bool) : Str → List Str
  | [] => [[]]
  | c :: cs =>
    match splitOnPred p cs with
    | [] => [[]]
    | h :: t => if p c then [] :: h :: t else (c :: h) :: t

/-- Python `s.split(sep)` for a single-character separator. -/
def splitOnChar (sep : Char) : Str → List Str := splitOnPred (fun c => c == sep)

/-- Python `s.split('\n')`. -/
def splitLines : Str → List Str := splitOnChar '\n'

/-- Python `s.split()` (split on whitespace runs, discarding empty pieces). -/
def pySplitWS (s : Str) : List Str :=
  (splitOnPred pyIsSpace s).filter (fun l => !l.isEmpty)

/-- Python `s.split('\\\\')`: split on the two-character sequence of two
backslashes, scanning left to right without overlap. -/
def splitOnDBS : Str → List Str
  | [] => [[]]
  | '\\' :: '\\' :: rest => [] :: splitOnDBS rest
  | c :: rest =>
    match splitOnDBS rest with
    | [] => [[]]
    | h :: t => (c :: h) :: t

/-- `re.sub(r'\s+', '', s)`: delete every whitespace character. -/
def stripWS (s : Str) : Str := s.filter (fun c => !pyIsSpace c)

/-- Index of the first occurrence of `needle` in `hay`
(Python `hay.find(needle)`, with `none` for "not found"). -/
def findSubIdx (needle : Str) : Str → Option Nat
  | [] => if needle.isEmpty then some 0 else none
  | c :: cs =>
    if needle.isPrefixOf (c :: cs) then some 0
    else (findSubIdx needle cs).map (· + 1)

/-- Python `needle in hay` for strings. -/
def containsSub (needle hay : Str) : Bool := (findSubIdx needle hay).isSome

/-- Python `lines[-1] if lines else ""` (the list produced by `str.split` is
never empty, so the default is immaterial). -/
def pyLastLine (ls : List Str) : Str := ls.getLastD []

/-- Consume `(digit | '_' digit)*` after an initial digit has already been
consumed, returning the digit characters (underscores removed) and the rest.
This is the PEP 515 rule: an underscore is taken only between two digits. -/
def lexMoreDigitsU : Str → (List Char × Str)
  | [] => ([], [])
  | c :: cs =>
    if isDigitB c then
      let (d, r) := lexMoreDigitsU cs
      (c :: d, r)
    else if c == '_' then
      match cs with
      | c2 :: cs2 =>
        if isDigitB c2 then
          let (d, r) := lexMoreDigitsU cs2
          (c2 :: d, r)
        else ([], c :: cs)
      | [] => ([], [c])
    else ([], c :: cs)

/-- Lex a digit group `digit (digit | '_' digit)*`; fails unless the string
starts with a digit. -/
def lexDigitsU : Str → Option (List Char × Str)
  | [] => none
  | c :: cs =>
    if isDigitB c then
      let (d, r) := lexMoreDigitsU cs
      some (c :: d, r)
    else none

def digitsVal (ds : List Char) : Nat :=
  ds.foldl (fun a c => a * 10 + (c.toNat - 48)) 0

/-- Model of a Python `float` value: an exact rational for finite values,
the two infinities, and NaN.  (Decimal source text denotes its exact
rational value here; IEEE rounding is not modelled.) -/
inductive PyFloat where
  | finite : ℚ → PyFloat
  | inf : PyFloat
  | neginf : PyFloat
  | nan : PyFloat
deriving DecidableEq

/-- The exact rational value of a signed decimal with integer digits `ipD`,
fraction digits `fpD` and decimal exponent `e`, built with integer
arithmetic and one `mkRat` (so that it evaluates by kernel reduction):
`±(ipD.fpD) * 10^e`. -/
def decValue (neg : Bool) (ipD fpD : List Char) (e : ℤ) : ℚ :=
  let n : ℤ := ((digitsVal ipD * 10 ^ fpD.length + digitsVal fpD : ℕ) : ℤ)
  mkRat ((if neg then -n else n) * 10 ^ e.toNat)
    (10 ^ fpD.length * 10 ^ (-e).toNat)

/-- Parse the unsigned decimal grammar accepted by Python `float`:
`digits [. digits] [(e|E) [sign] digits]` with at least one mantissa digit,
requiring the whole string to be consumed; `neg` is the already-consumed
sign. -/
def parseDecFull (neg : Bool) (s : Str) : Option ℚ :=
  let (ipD, s1) :=
    match lexDigitsU s with
    | some (d, r) => (d, r)
    | none => (([] : List Char), s)
  let (fpD, s2) :=
    match s1 with
    | '.' :: r =>
      (match lexDigitsU r with
       | some (d, r2) => (d, r2)
       | none => (([] : List Char), r))
    | _ => (([] : List Char), s1)
  if ipD.isEmpty && fpD.isEmpty then none
  else
    match s2 with
    | [] => some (decValue neg ipD fpD 0)
    | e :: r =>
      if e == 'e' || e == 'E' then
        let (sgn, r1) :=
          match r with
          | '+' :: r2 => ((1 : ℤ), r2)
          | '-' :: r2 => ((-1 : ℤ), r2)
          | _ => ((1 : ℤ), r)
        match lexDigitsU r1 with
        | some (d, r2) =>
          if r2.isEmpty then some (decValue neg ipD fpD (sgn * (digitsVal d : ℤ)))
          else none
        | none => none
      else none

/-- Model of Python `float(s)`: strip whitespace, optional sign, then either
`inf`/`infinity`/`nan` (case-insensitive) or the decimal grammar.
`ValueError` is `none`. -/
def pyFloatParse (s : Str) : Option PyFloat :=
  let t := pyStrip s
  let (neg, t1) :=
    match t with
    | '+' :: r => (false, r)
    | '-' :: r => (true, r)
    | _ => (false, t)
  let low := t1.map asciiLower
  if low == str "inf" || low == str "infinity" then
    some (if neg then PyFloat.neginf else PyFloat.inf)
  else if low == str "nan" then some PyFloat.nan
  else
    match parseDecFull neg t1 with
    | some q => some (PyFloat.finite q)
    | none => none

/-- Model of Python `int(s)` for decimal text: strip whitespace, optional
sign, digit group; `ValueError` is `none`. -/
def pyIntParse (s : Str) : Option ℤ :=
  let t := pyStrip s
  let (neg, t1) :=
    match t with
    | '+' :: r => (false, r)
    | '-' :: r => (true, r)
    | _ => (false, t)
  match lexDigitsU t1 with
  | some (d, r) =>
    if r.isEmpty then
      some (if neg then -(digitsVal d : ℤ) else (digitsVal d : ℤ))
    else none
  | none => none

/-- `AtomCoordinate`: an element symbol with three coordinates
(dataclass `AtomCoordinate` in the source). -/
structure AtomCoordinate where
  element : Str
  x : PyFloat
  y : PyFloat
  z : PyFloat
deriving DecidableEq

/-- The `ELEMENT_MAP` table: atomic number 1-118 to IUPAC symbol. -/
def ELEMENT_MAP : List (ℤ × Str) :=
  [(1, str "H"), (2, str "He"), (3, str "Li"), (4, str "Be"), (5, str "B"),
   (6, str "C"), (7, str "N"), (8, str "O"), (9, str "F"), (10, str "Ne"),
   (11, str "Na"), (12, str "Mg"), (13, str "Al"), (14, str "Si"), (15, str "P"),
   (16, str "S"), (17, str "Cl"), (18, str "Ar"), (19, str "K"), (20, str "Ca"),
   (21, str "Sc"), (22, str "Ti"), (23, str "V"), (24, str "Cr"), (25, str "Mn"),
   (26, str "Fe"), (27, str "Co"), (28, str "Ni"), (29, str "Cu"), (30, str "Zn"),
   (31, str "Ga"), (32, str "Ge"), (33, str "As"), (34, str "Se"), (35, str "Br"),
   (36, str "Kr"), (37, str "Rb"), (38, str "Sr"), (39, str "Y"), (40, str "Zr"),
   (41, str "Nb"), (42, str "Mo"), (43, str "Tc"), (44, str "Ru"), (45, str "Rh"),
   (46, str "Pd"), (47, str "Ag"), (48, str "Cd"), (49, str "In"), (50, str "Sn"),
   (51, str "Sb"), (52, str "Te"), (53, str "I"), (54, str "Xe"), (55, str "Cs"),
   (56, str "Ba"), (57, str "La"), (58, str "Ce"), (59, str "Pr"), (60, str "Nd"),
   (61, str "Pm"), (62, str "Sm"), (63, str "Eu"), (64, str "Gd"), (65, str "Tb"),
   (66, str "Dy"), (67, str "Ho"), (68, str "Er"), (69, str "Tm"), (70, str "Yb"),
   (71, str "Lu"), (72, str "Hf"), (73, str "Ta"), (74, str "W"), (75, str "Re"),
   (76, str "Os"), (77, str "Ir"), (78, str "Pt"), (79, str "Au"), (80, str "Hg"),
   (81, str "Tl"), (82, str "Pb"), (83, str "Bi"), (84, str "Po"), (85, str "At"),
   (86, str "Rn"), (87, str "Fr"), (88, str "Ra"), (89, str "Ac"), (90, str "Th"),
   (91, str "Pa"), (92, str "U"), (93, str "Np"), (94, str "Pu"), (95, str "Am"),
   (96, str "Cm"), (97, str "Bk"), (98, str "Cf"), (99, str "Es"), (100, str "Fm"),
   (101, str "Md"), (102, str "No"), (103, str "Lr"), (104, str "Rf"), (105, str "Db"),
   (106, str "Sg"), (107, str "Bh"), (108, str "Hs"), (109, str "Mt"), (110, str "Ds"),
   (111, str "Rg"), (112, str "Cn"), (113, str "Nh"), (114, str "Fl"), (115, str "Mc"),
   (116, str "Lv"), (117, str "Ts"), (118, str "Og")]

/-- Python `str(z)` for an integer. -/
def intRepr (z : ℤ) : Str :=
  if z < 0 then '-' :: Nat.toDigits 10 z.natAbs else Nat.toDigits 10 z.natAbs

/-- `_get_element_symbol`: `ELEMENT_MAP.get(n, str(n))`. -/
def get_element_symbol (z : ℤ) : Str :=
  match ELEMENT_MAP.lookup z with
  | some s => s
  | none => intRepr z

/-- `re.match(r'^[A-Za-z]+$', s)` as a Boolean (applied to whitespace-free
tokens, so the `$`-before-final-newline subtlety cannot arise). -/
def matchStrictElement (s : Str) : Bool := !s.isEmpty && s.all isAsciiLetter

/-- `re.match(r'^[A-Za-z]+(?:-[A-Za-z0-9]+)?$', s)` as a Boolean. -/
def matchBroadElement (s : Str) : Bool :=
  let letters := s.takeWhile isAsciiLetter
  let rest := s.dropWhile isAsciiLetter
  !letters.isEmpty &&
    (rest.isEmpty ||
      (match rest with
       | '-' :: tail => !tail.isEmpty && tail.all isAsciiAlnum
       | _ => false))

/-- `re.match(r'^[+-]?\d+\s+[+-]?\d+\s*$', s)` as a Boolean: exactly two
optionally-signed integers separated by whitespace and nothing else. -/
def looksLikeChargeMult (s : Str) : Bool :=
  let s1 := match s with
    | '+' :: r => r
    | '-' :: r => r
    | t => t
  let d1 := s1.takeWhile isDigitB
  let r1 := s1.dropWhile isDigitB
  let w := r1.takeWhile pyIsSpace
  let r2 := r1.dropWhile pyIsSpace
  let s2 := match r2 with
    | '+' :: r => r
    | '-' :: r => r
    | t => t
  let d2 := s2.takeWhile isDigitB
  let r3 := s2.dropWhile isDigitB
  !d1.isEmpty && !w.isEmpty && !d2.isEmpty && r3.all pyIsSpace

/-- `_parse_coordinate_line`: parse one "Standard orientation" data line
`CenterNumber AtomicNumber AtomicType X Y Z`.  Conversion failures
(`ValueError`/`IndexError` in the source's `try`) yield `none`. -/
def parse_coordinate_line (line : Str) : Option AtomCoordinate :=
  let parts := pySplitWS line
  if 6 ≤ parts.length then
    match pyIntParse (parts.getD 1 []), pyFloatParse (parts.getD 3 []),
          pyFloatParse (parts.getD 4 []), pyFloatParse (parts.getD 5 []) with
    | some n, some x, some y, some z =>
      some { element := get_element_symbol n, x := x, y := y, z := z }
    | _, _, _, _ => none
  else none

/-- `_parse_input_coordinate_line`: parse an `Element X Y Z` line as found in
Gaussian input and MOLPRO files. -/
def parse_input_coordinate_line (line : Str) : Option AtomCoordinate :=
  let parts := pySplitWS line
  if 4 ≤ parts.length then
    let el := pyStrip (parts.getD 0 [])
    if matchStrictElement el then
      match pyFloatParse (parts.getD 1 []), pyFloatParse (parts.getD 2 []),
            pyFloatParse (parts.getD 3 []) with
      | some x, some y, some z => some { element := el, x := x, y := y, z := z }
      | _, _, _ => none
    else none
  else none

def punchMarker : Str := str "The archive entry for this job was punched."

/-- The reverse scan of `_find_punch_string`: iterate over the lines before
the marker in reverse order; a stripped line containing a backslash is
accumulated; once accumulation has started, a blank line or a line without a
backslash stops the scan. -/
def punchScan : List Str → Bool → List Str → List Str
  | [], _, acc => acc
  | l :: rest, flag, acc =>
    let l2 := pyStrip l
    if l2.isEmpty then (if flag then acc else punchScan rest flag acc)
    else if l2.contains '\\' then punchScan rest true (acc ++ [l2])
    else if flag then acc else punchScan rest flag acc

/-- `_find_punch_string`: locate the punch marker and reassemble the punch
string from the backslash-laden lines just before it. -/
def find_punch_string (content : Str) : Option Str :=
  match findSubIdx punchMarker content with
  | none => none
  | some i =>
    let lines := splitLines (pyStrip (content.take i))
    let pl := punchScan lines.reverse false []
    if pl.isEmpty then none else some (List.flatten pl.reverse)

/-- Floats of one punch atom entry (the body of the source's `try`). -/
def punchEntryFloats (el : Str) (p1 p2 p3 : Str) : Option AtomCoordinate :=
  match pyFloatParse p1, pyFloatParse p2, pyFloatParse p3 with
  | some x, some y, some z => some { element := el, x := x, y := y, z := z }
  | _, _, _ => none

/-- Parse one `Element,X,Y,Z` punch entry, with the source's nested
element-symbol checks kept as written: the broader hyphen-permitting pattern
is tested first, and only when it fails is the strict pattern consulted. -/
def parsePunchEntry (e : Str) : Option AtomCoordinate :=
  if e.isEmpty then none
  else
    match splitOnChar ',' e with
    | [p0, p1, p2, p3] =>
      let el := pyStrip p0
      if !matchBroadElement el then
        (if !matchStrictElement el then none else punchEntryFloats el p1 p2 p3)
      else punchEntryFloats el p1 p2 p3
    | _ => none

/-- The per-entry loop of `_extract_from_punch`: malformed entries are
skipped individually. -/
def parsePunchEntries : List Str → List AtomCoordinate
  | [] => []
  | e :: rest =>
    match parsePunchEntry e with
    | some c => c :: parsePunchEntries rest
    | none => parsePunchEntries rest

/-- `_extract_from_punch`: strip all whitespace from the punch string, split
on double backslash, require at least four sections, and parse section
index 3 as backslash-separated `Element,X,Y,Z` entries. -/
def extract_from_punch (content : Str) : List AtomCoordinate :=
  match find_punch_string content with
  | none => []
  | some p =>
    let secs := splitOnDBS (stripWS p)
    if secs.length < 4 then []
    else
      let cds := secs.getD 3 []
      if cds.isEmpty then [] else parsePunchEntries (splitOnChar '\\' cds)

/-- The dashed-delimiter test of the standard-orientation scanner, applied to
an already-stripped line: `'-----' in line and len(line) > 20`. -/
def isDashLine (l : Str) : Bool := containsSub (str "-----") l && decide (20 < l.length)

/-- The delimiter test on a raw line (the scanner strips first). -/
def isDelimLine (l : Str) : Bool := isDashLine (pyStrip l)

/-- Header-keyword test used while the delimiter counter equals 1. -/
def stdHeaderLine (l : Str) : Bool :=
  containsSub (str "Center") l || containsSub (str "Number") l ||
    containsSub (str "Atomic") l || containsSub (str "Coordinates") l ||
    containsSub (str "Type") l

/-- The delimiter-counting loop of `_extract_from_standard_orientation`,
translated statement for statement (including the fall-through for
counter-1 lines without header keywords). -/
def stdLoop : List Str → Nat → List AtomCoordinate
  | [], _ => []
  | l :: rest, count =>
    let l2 := pyStrip l
    if isDashLine l2 then stdLoop rest (count + 1)
    else if l2.isEmpty then stdLoop rest count
    else if count == 1 && stdHeaderLine l2 then stdLoop rest count
    else if count == 2 then
      match parse_coordinate_line l2 with
      | some c => c :: stdLoop rest count
      | none => stdLoop rest count
    else if 3 ≤ count then []
    else stdLoop rest count

/-- Strip a case-insensitive literal prefix (`pat` given in lowercase),
returning the remainder. -/
def stripPrefixCI : Str → Str → Option Str
  | [], s => some s
  | _ :: _, [] => none
  | p :: ps, c :: cs => if asciiLower c == p then stripPrefixCI ps cs else none

/-- Match the pattern `(?i)standard\s+orientation:` at the head of `s`,
returning the text after the match.  The greedy `\s+` needs no backtracking:
a whitespace character can never begin `orientation:`. -/
def matchStdOrientAt (s : Str) : Option Str :=
  match stripPrefixCI (str "standard") s with
  | none => none
  | some r1 =>
    if (r1.takeWhile pyIsSpace).isEmpty then none
    else stripPrefixCI (str "orientation:") (r1.dropWhile pyIsSpace)

/-- Scan every position of `s` left to right, remembering the remainder of
the last position where the standard-orientation pattern matches.  Matches
of this pattern can never overlap, so this coincides with the end of the
last `re.finditer` match. -/
def lastStdOrientGo : Str → Option Str → Option Str
  | [], best => best
  | c :: rest, best =>
    lastStdOrientGo rest
      (match matchStdOrientAt (c :: rest) with
       | some r => some r
       | none => best)

def lastStdOrientSuffix (s : Str) : Option Str := lastStdOrientGo s none

/-- Is there any standard-orientation marker in `s`? -/
def hasStdOrientMarker : Str → Bool
  | [] => false
  | c :: rest => (matchStdOrientAt (c :: rest)).isSome || hasStdOrientMarker rest

/-- `_extract_from_standard_orientation`: take the text after the last
`standard orientation:` occurrence and run the delimiter-counting loop. -/
def extract_from_standard_orientation (content : Str) : List AtomCoordinate :=
  match lastStdOrientSuffix content with
  | none => []
  | some rest => stdLoop (splitLines rest) 0

/-- The charge/multiplicity search of `_extract_from_input_file`: index of
the first line whose stripped text matches the two-integer pattern. -/
def findChgMult : List Str → Option Nat
  | [] => none
  | l :: rest =>
    if looksLikeChargeMult (pyStrip l) then some 0
    else (findChgMult rest).map (· + 1)

/-- The collection loop of `_extract_from_input_file`: parse lines until the
first blank line or the first non-blank line that fails to parse. -/
def collectInputCoords : List Str → List AtomCoordinate
  | [] => []
  | l :: rest =>
    let l2 := pyStrip l
    if l2.isEmpty then []
    else
      match parse_input_coordinate_line l2 with
      | some c => c :: collectInputCoords rest
      | none => []

/-- `_extract_from_input_file`. -/
def extract_from_input_file (content : Str) : List AtomCoordinate :=
  let lines := splitLines content
  match findChgMult lines with
  | none => []
  | some i => collectInputCoords (lines.drop (i + 1))

/-- Match the core of the MOLPRO geometry-block regex
`(?:geometry|geom)\s*=\s*\{([^}]*)\}` at the head of `s`, returning the
captured body and the text after the closing brace.  The optional
`(?:angstrom|bohr|au)?\s*;?\s*` regex prefix is omitted: it never changes
the captured group or where the scan resumes.  The ordered alternation is
kept: `geometry` is tried before `geom`, and on failure of the tail the
`geom` alternative is retried, exactly as the backtracking engine does. -/
def geomCore (s1 : Str) : Option (Str × Str) :=
  match s1.dropWhile pyIsSpace with
  | '=' :: s3 =>
    match s3.dropWhile pyIsSpace with
    | '{' :: s5 =>
      match s5.dropWhile (fun c => !(c == '}')) with
      | '}' :: rest => some (s5.takeWhile (fun c => !(c == '}')), rest)
      | _ => none
    | _ => none
  | _ => none

def matchGeomBlockAt (s : Str) : Option (Str × Str) :=
  match stripPrefixCI (str "geometry") s with
  | some r1 =>
    (match geomCore r1 with
     | some cr => some cr
     | none =>
       match stripPrefixCI (str "geom") s with
       | some r2 => geomCore r2
       | none => none)
  | none =>
    match stripPrefixCI (str "geom") s with
    | some r2 => geomCore r2
    | none => none


theorem dropWhile_length_le (p : Char → Bool) : ∀ s : Str, (s.dropWhile p).length ≤ s.length := by
  intro s
  induction s with
  | nil => simp
  | cons c cs ih =>
    by_cases h : p c
    · simp [List.dropWhile, h]; omega
    · simp [List.dropWhile, h]

theorem stripPrefixCI_length {p s r : Str} (h : stripPrefixCI p s = some r) :
    p.length + r.length = s.length := by
  induction p generalizing s with
  | nil => simp [stripPrefixCI] at h; simp [h]
  | cons c cs ih =>
    cases s with
    | nil => simp [stripPrefixCI] at h
    | cons a as =>
      simp only [stripPrefixCI] at h
      by_cases hc : asciiLower a == c
      · simp only [hc, if_true] at h
        have := ih h
        simp only [List.length_cons]
        omega
      · simp [hc] at h

theorem geomCore_length {s1 cap rest : Str} (h : geomCore s1 = some (cap, rest)) :
    rest.length < s1.length := by
  unfold geomCore at h
  have h1 := dropWhile_length_le pyIsSpace s1
  split at h
  case _ s3 heq =>
    rw [heq] at h1
    have h2 := dropWhile_length_le pyIsSpace s3
    split at h
    case _ s5 heq2 =>
      rw [heq2] at h2
      have h3 := dropWhile_length_le (fun c => !(c == '}')) s5
      split at h
      case _ r heq3 =>
        rw [heq3] at h3
        simp only [Option.some.injEq, Prod.mk.injEq] at h
        obtain ⟨_, hr⟩ := h
        subst hr
        simp only [List.length_cons] at h1 h2 h3
        omega
      case _ => exact absurd h (by simp)
    case _ => exact absurd h (by simp)
  case _ => exact absurd h (by simp)

theorem matchGeomBlockAt_length {s cap rest : Str}
    (h : matchGeomBlockAt s = some (cap, rest)) : rest.length < s.length := by
  unfold matchGeomBlockAt at h
  split at h
  case _ r1 h8 =>
    split at h
    case _ cr hc =>
      simp only [Option.some.injEq] at h
      subst h
      have := geomCore_length hc
      have hl := stripPrefixCI_length h8
      have e8 : (str "geometry").length = 8 := by rfl
      rw [e8] at hl
      omega
    case _ =>
      split at h
      case _ r2 h4 =>
        have := geomCore_length h
        have hl := stripPrefixCI_length h4
        have e4 : (str "geom").length = 4 := by rfl
        rw [e4] at hl
        omega
      case _ => exact absurd h (by simp)
  case _ =>
    split at h
    case _ r2 h4 =>
      have := geomCore_length h
      have hl := stripPrefixCI_length h4
      have e4 : (str "geom").length = 4 := by rfl
      rw [e4] at hl
      omega
    case _ => exact absurd h (by simp)

/-- The `finditer` scan over geometry blocks, with an explicit fuel
parameter bounding the number of scan steps (structural recursion so that
the scan evaluates inside the kernel; `s.length + 1` fuel always
suffices, see `molproGoF_fuel`). -/
def molproGoF : Nat → Str → List Str
  | 0, _ => []
  | fuel + 1, s =>
    match matchGeomBlockAt s with
    | some cr => cr.1 :: molproGoF fuel cr.2
    | none =>
      match s with
      | [] => []
      | _ :: t => molproGoF fuel t

/-- The `finditer` scan over geometry blocks: captured bodies in document
order, resuming after each closing brace. -/
def molproGo (s : Str) : List Str := molproGoF (s.length + 1) s

theorem molproGoF_fuel (fuel : Nat) (s : Str) (h : s.length < fuel) :
    molproGoF fuel s = molproGoF (s.length + 1) s := by
  induction fuel using Nat.strong_induction_on generalizing s with
  | _ fuel ih =>
    cases fuel with
    | zero => omega
    | succ f =>
      have step : ∀ (m : Nat) (u : Str), molproGoF (m + 1) u =
          (match matchGeomBlockAt u with
           | some cr => cr.1 :: molproGoF m cr.2
           | none =>
             match u with
             | [] => []
             | _ :: t => molproGoF m t) := fun m u => rfl
      cases hm : matchGeomBlockAt s with
      | some cr =>
        obtain ⟨cap, rest⟩ := cr
        have hlt := matchGeomBlockAt_length hm
        rw [step f s, step s.length s, hm]
        dsimp only
        rw [ih f (by omega) rest (by omega),
          ih s.length (by omega) rest (by omega)]
      | none =>
        cases s with
        | nil =>
          rw [step f [], hm]
          simp only [List.length_nil]
          rw [step 0 [], hm]
        | cons c t =>
          simp only [List.length_cons] at h
          rw [step f (c :: t), hm]
          dsimp only
          simp only [List.length_cons]
          rw [step (t.length + 1) (c :: t), hm]
          dsimp only
          rw [ih f (by omega) t (by omega)]

/-- MOLPRO comment test: the stripped line starts with `#`, `!` or `*`. -/
def mpIsComment : Str → Bool
  | [] => false
  | c :: _ => c == '#' || c == '!' || c == '*'

/-- Bare unit/symmetry keyword test (`line.lower() in [...]`). -/
def mpIsKeyword (l : Str) : Bool :=
  let low := l.map asciiLower
  low == str "angstrom" || low == str "bohr" || low == str "au" || low == str "symmetry"

/-- The per-line loop inside one MOLPRO geometry block. -/
def mpBlockLines : List Str → List AtomCoordinate
  | [] => []
  | l :: rest =>
    let l2 := pyStrip l
    if l2.isEmpty || mpIsComment l2 then mpBlockLines rest
    else if mpIsKeyword l2 || l2.contains '=' then mpBlockLines rest
    else
      match parse_input_coordinate_line l2 with
      | some c => c :: mpBlockLines rest
      | none => mpBlockLines rest

/-- Parse the body of one geometry block. -/
def parseMolproBlock (cap : Str) : List AtomCoordinate :=
  mpBlockLines (splitLines (pyStrip cap))

/-- The block loop of `_extract_from_molpro_file`: the first block that
yields any coordinates wins; blocks yielding none are passed over. -/
def molproFirst : List Str → List AtomCoordinate
  | [] => []
  | b :: bs =>
    let c := parseMolproBlock b
    if c.isEmpty then molproFirst bs else c

/-- `_extract_from_molpro_file`. -/
def extract_from_molpro_file (content : Str) : List AtomCoordinate :=
  molproFirst (molproGo content)

/-- `_detect_file_type` result. -/
inductive FileType where
  | gaussian_input
  | gaussian_log
  | molpro
  | unknown
deriving DecidableEq

/-- `_detect_file_type` applied to the path's suffix (`Path.suffix.lower()`). -/
def detect_file_type (ext : Str) : FileType :=
  let e := ext.map asciiLower
  if e == str ".com" then FileType.gaussian_input
  else if e == str ".log" then FileType.gaussian_log
  else if e == str ".in" || e == str ".out" then FileType.molpro
  else FileType.unknown

def needleNT : Str := str "Normal termination"

/-- The final at-most-1000-byte tail of the file read by
`_check_normal_termination`. -/
def tailChunk (c : Str) : Str := c.drop (c.length - min 1000 c.length)

/-- `_check_normal_termination`, as a function of the outcome of its tail
read: `none` models any I/O failure inside the `try` (result `False`);
`some chunk` is the text read from the tail. -/
def check_normal_termination (tio : Option Str) : Bool :=
  match tio with
  | none => false
  | some chunk => containsSub needleNT (pyLastLine (splitLines (pyStrip chunk)))

/-- The last non-blank line of a line list (scanning from the end, skipping
whitespace-only lines). -/
def lastNBgo : List Str → Option Str
  | [] => none
  | l :: rest => if l.all pyIsSpace then lastNBgo rest else some l

def lastNB (ls : List Str) : Option Str := lastNBgo ls.reverse

/-- The last non-empty (non-whitespace-only) line of a text. -/
def lastNonBlankLine (s : Str) : Option Str := lastNB (splitLines s)

/-- A file as the extractor sees it: the path's extension, the result of
`read_text` (`none` on I/O failure), and the result of the termination
checker's own tail read (`none` on I/O failure). -/
structure FileModel where
  ext : Str
  content : Option Str
  tailRead : Option Str

/-- `extract_coordinates`: the single public entry point. -/
def extract_coordinates (f : FileModel) : List AtomCoordinate :=
  match f.content with
  | none => []
  | some c =>
    match detect_file_type f.ext with
    | FileType.gaussian_input => extract_from_input_file c
    | FileType.gaussian_log =>
      if check_normal_termination f.tailRead then
        let p := extract_from_punch c
        if p.isEmpty then extract_from_standard_orientation c else p
      else extract_from_standard_orientation c
    | FileType.molpro => extract_from_molpro_file c
    | FileType.unknown => []

/-- `extract_coordinates` instrumented with a flag recording whether the
standard-orientation sub-strategy was consulted. -/
def extractCoordinatesI (f : FileModel) : List AtomCoordinate × Bool :=
  match f.content with
  | none => ([], false)
  | some c =>
    match detect_file_type f.ext with
    | FileType.gaussian_input => (extract_from_input_file c, false)
    | FileType.gaussian_log =>
      if check_normal_termination f.tailRead then
        let p := extract_from_punch c
        if p.isEmpty then (extract_from_standard_orientation c, true) else (p, false)
      else (extract_from_standard_orientation c, true)
    | FileType.molpro => (extract_from_molpro_file c, false)
    | FileType.unknown => ([], false)

/-- List indexing as a fallible operation (Python's `l[i]`, which raises
`IndexError` when out of range). -/
def listGetE (l : List Str) (n : Nat) : Except Unit Str :=
  match l.get? n with
  | some a => Except.ok a
  | none => Except.error ()

/-- `_extract_from_punch` in an exception-explicit form: the indexing
`punch_sections[3]` sits outside any `try` in the source, so here it is the
fallible `listGetE`, guarded only by the preceding length check. -/
def extract_from_punchE (content : Str) : Except Unit (List AtomCoordinate) :=
  match find_punch_string content with
  | none => Except.ok []
  | some p =>
    let secs := splitOnDBS (stripWS p)
    if secs.length < 4 then Except.ok []
    else
      match listGetE secs 3 with
      | Except.error e => Except.error e
      | Except.ok cds =>
        Except.ok (if cds.isEmpty then [] else parsePunchEntries (splitOnChar '\\' cds))

/-- `extract_coordinates` in the exception-explicit form. -/
def extract_coordinatesE (f : FileModel) : Except Unit (List AtomCoordinate) :=
  match f.content with
  | none => Except.ok []
  | some c =>
    match detect_file_type f.ext with
    | FileType.gaussian_input => Except.ok (extract_from_input_file c)
    | FileType.gaussian_log =>
      if check_normal_termination f.tailRead then
        match extract_from_punchE c with
        | Except.error e => Except.error e
        | Except.ok p =>
          Except.ok (if p.isEmpty then extract_from_standard_orientation c else p)
      else Except.ok (extract_from_standard_orientation c)
    | FileType.molpro => Except.ok (extract_from_molpro_file c)
    | FileType.unknown => Except.ok []

/-- Case normalisation applied by the formula generator to each stored
element symbol: first character uppercased and the rest lowercased for
multi-character symbols, uppercase for shorter ones. -/
def pyNormalize (el : Str) : Str :=
  match el with
  | [] => []
  | c :: rest =>
    if rest.isEmpty then [asciiUpper c] else asciiUpper c :: rest.map asciiLower

/-- One `atom_count[k] = atom_count.get(k, 0) + 1` step on an
insertion-ordered association list (a Python dict). -/
def tallyAdd (m : List (Str × Nat)) (k : Str) : List (Str × Nat) :=
  if m.any (fun p => p.1 == k) then
    m.map (fun p => if p.1 == k then (p.1, p.2 + 1) else p)
  else m ++ [(k, 1)]

/-- The tally loop of `generate_formula`. -/
def tally (coords : List AtomCoordinate) : List (Str × Nat) :=
  coords.foldl (fun m a => tallyAdd m (pyNormalize a.element)) []

/-- Count stored for key `k` (0 when absent). -/
def tallyGet (m : List (Str × Nat)) (k : Str) : Nat :=
  match m.find? (fun p => p.1 == k) with
  | some p => p.2
  | none => 0

/-- `preferred_order.get(el, inf)`: 0 for carbon, 1 for hydrogen, and one
common larger rank standing for `float('inf')` for everything else. -/
def hillRank (el : Str) : Nat :=
  if el == str "C" then 0 else if el == str "H" then 1 else 2

/-- Python `<` on strings: lexicographic comparison by code point. -/
def strLtB : Str → Str → Bool
  | [], [] => false
  | [], _ :: _ => true
  | _ :: _, [] => false
  | a :: as, b :: bs =>
    if a.toNat < b.toNat then true
    else if b.toNat < a.toNat then false
    else strLtB as bs

/-- The sort key comparison `(preferred_order.get(el, inf), el) ≤ ...`. -/
def hillKeyLeB (a b : Str) : Bool :=
  decide (hillRank a < hillRank b) ||
    (hillRank a == hillRank b && (strLtB a b || a == b))

def insertSorted (x : Str) : List Str → List Str
  | [] => [x]
  | y :: ys => if hillKeyLeB x y then x :: y :: ys else y :: insertSorted x ys

/-- `sorted(keys, key=...)`: the element keys are pairwise distinct, so any
comparison sort, in particular insertion sort, produces Python's result. -/
def sortKeys : List Str → List Str
  | [] => []
  | x :: xs => insertSorted x (sortKeys xs)

/-- `generate_formula`. -/
def generate_formula (coords : List AtomCoordinate) : Str :=
  if coords.isEmpty then []
  else
    let m := tally coords
    List.flatten
      ((sortKeys (m.map Prod.fst)).map
        (fun el =>
          el ++ (if 1 < tallyGet m el then Nat.toDigits 10 (tallyGet m el) else [])))

def isNotDelim (l : Str) : Bool := !isDelimLine l

/-- Drop lines up to and including the next structural delimiter line. -/
def afterDelimBlock (ls : List Str) : List Str := (ls.dropWhile isNotDelim).tail

/-- The lines strictly between the second and third delimiter lines. -/
def zone2 (ls : List Str) : List Str :=
  (afterDelimBlock (afterDelimBlock ls)).takeWhile isNotDelim

theorem stdLoop_ge3 (ls : List Str) (d : Nat) (hd : 3 ≤ d) : stdLoop ls d = [] := by
  induction ls generalizing d with
  | nil => simp [stdLoop]
  | cons l rest ih =>
    simp only [stdLoop]
    by_cases h1 : isDashLine (pyStrip l)
    · simp only [h1, if_true]
      exact ih (d + 1) (by omega)
    · simp only [h1, if_false]
      by_cases h2 : (pyStrip l).isEmpty
      · simp only [h2, if_true]
        exact ih d hd
      · simp only [h2, if_false]
        have hne1 : (d == 1) = false := by simp; omega
        have hne2 : (d == 2) = false := by simp; omega
        simp [hne1, hne2, hd]

theorem stdLoop_two (ls : List Str) :
    stdLoop ls 2 =
      (ls.takeWhile isNotDelim).filterMap (fun l => parse_coordinate_line (pyStrip l)) := by
  induction ls with
  | nil => simp [stdLoop]
  | cons l rest ih =>
    simp only [stdLoop]
    by_cases h1 : isDashLine (pyStrip l)
    · have hd : isNotDelim l = false := by simp [isNotDelim, isDelimLine, h1]
      rw [List.takeWhile_cons, hd]
      simp only [h1, if_true]
      rw [stdLoop_ge3 rest 3 (by omega)]
      simp
    · have hd : isNotDelim l = true := by simp [isNotDelim, isDelimLine, h1]
      rw [List.takeWhile_cons, hd]
      simp only [h1, if_false, if_true]
      by_cases h2 : (pyStrip l).isEmpty
      · simp only [h2, if_true]
        have hp : parse_coordinate_line (pyStrip l) = none := by
          have : pyStrip l = [] := by
            cases hps : pyStrip l with
            | nil => rfl
            | cons a b => rw [hps] at h2; simp at h2
          rw [this]; rfl
        rw [List.filterMap_cons, hp]
        exact ih
      · simp only [h2, if_false]
        have hne1 : ((2 : Nat) == 1) = false := by decide
        simp only [hne1, Bool.false_and, if_false]
        have heq2 : ((2 : Nat) == 2) = true := by decide
        simp only [heq2, if_true]
        rw [List.filterMap_cons]
        cases hp : parse_coordinate_line (pyStrip l) with
        | some c => simp [ih]
        | none => simp [ih]

theorem stdLoop_low (ls : List Str) (d : Nat) (hd : d = 0 ∨ d = 1) :
    stdLoop ls d = stdLoop (afterDelimBlock ls) (d + 1) := by
  induction ls with
  | nil => simp [stdLoop, afterDelimBlock]
  | cons l rest ih =>
    by_cases h1 : isDashLine (pyStrip l)
    · have hnd : isNotDelim l = false := by simp [isNotDelim, isDelimLine, h1]
      simp only [stdLoop, h1, if_true]
      unfold afterDelimBlock
      rw [List.dropWhile_cons, hnd]
      simp
    · have hnd : isNotDelim l = true := by simp [isNotDelim, isDelimLine, h1]
      have hafter : afterDelimBlock (l :: rest) = afterDelimBlock rest := by
        unfold afterDelimBlock
        rw [List.dropWhile_cons, hnd]
        simp
      rw [hafter]
      simp only [stdLoop, h1, if_false]
      by_cases h2 : (pyStrip l).isEmpty
      · simp only [h2, if_true]; exact ih
      · simp only [h2, if_false]
        have hne2 : (d == 2) = false := by
          rcases hd with h | h <;> simp [h]
        have hge3 : ¬ (3 ≤ d) := by omega
        rcases hd with h | h
        · subst h
          have : ((0 : Nat) == 1) = false := by decide
          simp only [this, Bool.false_and, if_false, hne2, if_false, hge3, if_false]
          exact ih
        · subst h
          by_cases h3 : stdHeaderLine (pyStrip l)
          · have : ((1 : Nat) == 1) = true := by decide
            simp only [this, h3, Bool.and_self, Bool.true_and, if_true]
            exact ih
          · have h11 : ((1 : Nat) == 1) = true := by decide
            simp only [h11, h3, Bool.true_and, if_false, hne2, if_false, hge3, if_false]
            exact ih

theorem stdLoop_zone2 (ls : List Str) :
    stdLoop ls 0 = (zone2 ls).filterMap (fun l => parse_coordinate_line (pyStrip l)) := by
  rw [stdLoop_low ls 0 (Or.inl rfl), stdLoop_low (afterDelimBlock ls) 1 (Or.inr rfl),
    stdLoop_two]
  rfl

theorem lastStdOrientGo_best (s : Str) (b : Option Str) :
    lastStdOrientGo s b =
      match lastStdOrientGo s none with
      | some r => some r
      | none => b := by
  induction s generalizing b with
  | nil => simp [lastStdOrientGo]
  | cons c rest ih =>
    simp only [lastStdOrientGo]
    cases hm : matchStdOrientAt (c :: rest) with
    | some r =>
      simp only []
      rw [ih (some r)]
      cases lastStdOrientGo rest none <;> simp
    | none =>
      simp only []
      rw [ih b]

theorem lastStdOrientGo_none_iff (s : Str) :
    lastStdOrientGo s none = none ↔ hasStdOrientMarker s = false := by
  induction s with
  | nil => simp [lastStdOrientGo, hasStdOrientMarker]
  | cons c rest ih =>
    simp only [lastStdOrientGo, hasStdOrientMarker]
    cases hm : matchStdOrientAt (c :: rest) with
    | some r =>
      simp only []
      rw [lastStdOrientGo_best rest (some r)]
      cases hr : lastStdOrientGo rest none <;> simp
    | none =>
      simp only []
      rw [ih]
      simp

theorem stripPrefixCI_drop {p s r : Str} (h : stripPrefixCI p s = some r) :
    r = s.drop p.length := by
  induction p generalizing s with
  | nil => simp [stripPrefixCI] at h; simp [h]
  | cons c cs ih =>
    cases s with
    | nil => simp [stripPrefixCI] at h
    | cons a as =>
      simp only [stripPrefixCI] at h
      by_cases hc : asciiLower a == c
      · simp only [hc, if_true] at h
        simpa using ih h
      · simp [hc] at h

theorem dropWhile_eq_drop (p : Char → Bool) (s : Str) :
    ∃ k, s.dropWhile p = s.drop k := by
  induction s with
  | nil => exact ⟨0, rfl⟩
  | cons c cs ih =>
    by_cases h : p c
    · obtain ⟨k, hk⟩ := ih
      exact ⟨k + 1, by simp [List.dropWhile_cons, h, hk]⟩
    · exact ⟨0, by simp [List.dropWhile_cons, h]⟩

theorem matchStdOrientAt_drop {s r : Str} (h : matchStdOrientAt s = some r) :
    ∃ m, 1 ≤ m ∧ r = s.drop m := by
  unfold matchStdOrientAt at h
  cases h8 : stripPrefixCI (str "standard") s with
  | none => rw [h8] at h; simp at h
  | some r1 =>
    rw [h8] at h
    simp only [] at h
    by_cases hw : (r1.takeWhile pyIsSpace).isEmpty
    · simp [hw] at h
    · simp only [hw, if_false] at h
      have hr1 : r1 = s.drop 8 := by
        have := stripPrefixCI_drop h8
        simpa using this
      obtain ⟨k, hk⟩ := dropWhile_eq_drop pyIsSpace r1
      have hr2 := stripPrefixCI_drop h
      rw [hk, hr1] at hr2
      have e12 : (str "orientation:").length = 12 := by rfl
      rw [e12] at hr2
      refine ⟨12 + k + 8, by omega, ?_⟩
      rw [hr2]
      simp only [List.drop_drop]
      congr 1
      omega

theorem hasStdOrientMarker_drop {s : Str} (hs : hasStdOrientMarker s = false) :
    ∀ n, hasStdOrientMarker (s.drop n) = false := by
  intro n
  induction n generalizing s with
  | zero => simpa using hs
  | succ n ih =>
    cases s with
    | nil => simp [hasStdOrientMarker]
    | cons c rest =>
      simp only [hasStdOrientMarker, Bool.or_eq_false_iff] at hs
      simpa using ih hs.2

theorem lastStdOrientSuffix_no_marker {s r : Str}
    (h : lastStdOrientSuffix s = some r) : hasStdOrientMarker r = false := by
  induction s with
  | nil => simp [lastStdOrientSuffix, lastStdOrientGo] at h
  | cons c rest ih =>
    unfold lastStdOrientSuffix at h ih
    simp only [lastStdOrientGo] at h
    rw [lastStdOrientGo_best] at h
    cases hr : lastStdOrientGo rest none with
    | some r2 =>
      rw [hr] at h
      simp only [Option.some.injEq] at h
      subst h
      exact ih hr
    | none =>
      rw [hr] at h
      cases hm : matchStdOrientAt (c :: rest) with
      | none => rw [hm] at h; simp at h
      | some r3 =>
        rw [hm] at h
        simp only [Option.some.injEq] at h
        subst h
        have hrest : hasStdOrientMarker rest = false :=
          (lastStdOrientGo_none_iff rest).mp hr
        obtain ⟨m, hm1, hmr⟩ := matchStdOrientAt_drop hm
        subst hmr
        have : (c :: rest).drop m = rest.drop (m - 1) := by
          cases m with
          | zero => omega
          | succ k => simp
        rw [this]
        exact hasStdOrientMarker_drop hrest (m - 1)

/-- A line on which the Gaussian-input collection loop keeps going:
non-blank and parseable. -/
def goodInputLine (l : Str) : Bool :=
  !(pyStrip l).isEmpty && (parse_input_coordinate_line (pyStrip l)).isSome

theorem collectInputCoords_takeWhile (ls : List Str) :
    collectInputCoords ls =
      (ls.takeWhile goodInputLine).filterMap
        (fun l => parse_input_coordinate_line (pyStrip l)) := by
  induction ls with
  | nil => simp [collectInputCoords]
  | cons l rest ih =>
    simp only [collectInputCoords]
    by_cases h1 : (pyStrip l).isEmpty
    · have hg : goodInputLine l = false := by simp [goodInputLine, h1]
      rw [List.takeWhile_cons, hg]
      simp [h1]
    · simp only [h1, if_false]
      have h1f : (pyStrip l).isEmpty = false := by
        cases hb : (pyStrip l).isEmpty
        · rfl
        · exact absurd hb h1
      cases hp : parse_input_coordinate_line (pyStrip l) with
      | some c =>
        have hg : goodInputLine l = true := by
          simp [goodInputLine, h1f, hp]
        rw [List.takeWhile_cons, hg]
        simp only [if_true, List.filterMap_cons, hp]
        rw [ih]
        simp [h1f]
      | none =>
        have hg : goodInputLine l = false := by
          simp [goodInputLine, h1f, hp]
        rw [List.takeWhile_cons, hg]
        simp

theorem findChgMult_none_iff (ls : List Str) :
    findChgMult ls = none ↔ ∀ l ∈ ls, looksLikeChargeMult (pyStrip l) = false := by
  induction ls with
  | nil => simp [findChgMult]
  | cons l rest ih =>
    simp only [findChgMult]
    by_cases h : looksLikeChargeMult (pyStrip l)
    · simp [h]
    · simp only [h, if_false]
      rw [Bool.not_eq_true] at h
      cases hr : findChgMult rest with
      | some i =>
        constructor
        · intro hx
          exact absurd hx (by simp)
        · intro hall
          have hnone := ih.mpr (fun l2 hl2 => hall l2 (List.mem_cons_of_mem l hl2))
          rw [hr] at hnone
          exact Option.noConfusion hnone
      | none =>
        constructor
        · intro _
          intro l2 hl2
          rcases List.mem_cons.mp hl2 with h2 | h2
          · subst h2; simpa using h
          · exact (ih.mp hr) l2 h2
        · intro _
          rfl

theorem findChgMult_first (ls : List Str) (i : Nat) (h : findChgMult ls = some i) :
    i < ls.length ∧ looksLikeChargeMult (pyStrip (ls.getD i [])) = true ∧
      ∀ j, j < i → looksLikeChargeMult (pyStrip (ls.getD j [])) = false := by
  induction ls generalizing i with
  | nil => simp [findChgMult] at h
  | cons l rest ih =>
    simp only [findChgMult] at h
    by_cases hl : looksLikeChargeMult (pyStrip l)
    · simp only [hl, if_true, Option.some.injEq] at h
      subst h
      refine ⟨by simp, by simpa using hl, ?_⟩
      intro j hj
      omega
    · simp only [hl, if_false] at h
      cases hr : findChgMult rest with
      | none =>
        rw [hr] at h
        exact Option.noConfusion h
      | some i2 =>
        rw [hr] at h
        simp at h
        subst h
        obtain ⟨h1, h2, h3⟩ := ih i2 hr
        refine ⟨by simp only [List.length_cons]; omega, by simpa using h2, ?_⟩
        intro j hj
        cases j with
        | zero => simpa using hl
        | succ j2 =>
          simp only [List.getD_cons_succ]
          exact h3 j2 (by omega)

theorem strLtB_asymm_eq : ∀ a b : Str, strLtB a b = false → strLtB b a = false → a = b := by
  intro a
  induction a with
  | nil =>
    intro b h1 _
    cases b with
    | nil => rfl
    | cons c cs => simp [strLtB] at h1
  | cons c cs ih =>
    intro b h1 h2
    cases b with
    | nil => simp [strLtB] at h2
    | cons d ds =>
      simp only [strLtB] at h1 h2
      by_cases hcd : c.toNat < d.toNat
      · simp [hcd] at h1
      · simp only [hcd, if_false] at h1
        by_cases hdc : d.toNat < c.toNat
        · simp [hdc] at h2
        · simp only [hdc, hcd, if_false] at h1 h2
          have hn : c.toNat = d.toNat := by omega
          have hc : c = d := by
            refine Char.eq_of_val_eq (UInt32.eq_of_toBitVec_eq (BitVec.eq_of_toNat_eq ?_))
            exact hn
          rw [hc, ih ds h1 h2]

theorem strLtB_trans : ∀ a b c : Str, strLtB a b = true → strLtB b c = true → strLtB a c = true := by
  intro a
  induction a with
  | nil =>
    intro b c h1 h2
    cases b with
    | nil => simp [strLtB] at h1
    | cons d ds =>
      cases c with
      | nil => simp [strLtB] at h2
      | cons e es => simp [strLtB]
  | cons x xs ih =>
    intro b c h1 h2
    cases b with
    | nil => simp [strLtB] at h1
    | cons d ds =>
      cases c with
      | nil => simp [strLtB] at h2
      | cons e es =>
        simp only [strLtB] at h1 h2 ⊢
        by_cases hxd : x.toNat < d.toNat
        · by_cases hde : d.toNat < e.toNat
          · simp [show x.toNat < e.toNat by omega]
          · simp only [hde, if_false] at h2
            by_cases hed : e.toNat < d.toNat
            · simp [hed] at h2
            · simp [show x.toNat < e.toNat by omega]
        · simp only [hxd, if_false] at h1
          by_cases hdx : d.toNat < x.toNat
          · simp [hdx] at h1
          · simp only [hdx, if_false] at h1
            by_cases hde : d.toNat < e.toNat
            · simp [show x.toNat < e.toNat by omega]
            · simp only [hde, if_false] at h2
              by_cases hed : e.toNat < d.toNat
              · simp [hed] at h2
              · simp only [hed, if_false] at h2
                have hxe : ¬ x.toNat < e.toNat := by omega
                have hex : ¬ e.toNat < x.toNat := by omega
                simp only [hxe, if_false, hex, if_false]
                exact ih ds es h1 h2

theorem hillKeyLeB_total (a b : Str) : hillKeyLeB a b = true ∨ hillKeyLeB b a = true := by
  unfold hillKeyLeB
  by_cases h1 : hillRank a < hillRank b
  · left; simp [h1]
  · by_cases h2 : hillRank b < hillRank a
    · right; simp [h2]
    · have he : hillRank a = hillRank b := by omega
      cases hlt : strLtB a b with
      | true => left; simp [he, hlt]
      | false =>
        cases hlt2 : strLtB b a with
        | true => right; simp [he, hlt2]
        | false =>
          left
          have : a = b := strLtB_asymm_eq a b hlt hlt2
          simp [he, this]

theorem hillKeyLeB_trans (a b c : Str) (h1 : hillKeyLeB a b = true)
    (h2 : hillKeyLeB b c = true) : hillKeyLeB a c = true := by
  unfold hillKeyLeB at h1 h2 ⊢
  simp only [Bool.or_eq_true, Bool.and_eq_true, decide_eq_true_eq, beq_iff_eq] at h1 h2 ⊢
  rcases h1 with h1 | ⟨h1e, h1s⟩
  · rcases h2 with h2 | ⟨h2e, h2s⟩
    · left; omega
    · left; omega
  · rcases h2 with h2 | ⟨h2e, h2s⟩
    · left; omega
    · right
      refine ⟨by omega, ?_⟩
      rcases h1s with h1s | h1s
      · rcases h2s with h2s | h2s
        · left; exact strLtB_trans a b c h1s h2s
        · left; rw [← h2s]; exact h1s
      · rcases h2s with h2s | h2s
        · left; rw [h1s]; exact h2s
        · right; rw [h1s, h2s]

theorem insertSorted_mem (x z : Str) (l : List Str) (h : z ∈ insertSorted x l) :
    z = x ∨ z ∈ l := by
  induction l with
  | nil =>
    simp [insertSorted] at h
    simp [h]
  | cons y ys ih =>
    simp only [insertSorted] at h
    cases hle : hillKeyLeB x y with
    | true =>
      rw [hle] at h
      simp only [if_true, List.mem_cons] at h
      rcases h with h | h | h
      · exact Or.inl h
      · exact Or.inr (by rw [h]; exact List.mem_cons_self y ys)
      · exact Or.inr (List.mem_cons_of_mem y h)
    | false =>
      rw [hle] at h
      simp only [Bool.false_eq_true, if_false, List.mem_cons] at h
      rcases h with h | h
      · exact Or.inr (h ▸ List.mem_cons_self y ys)
      · rcases ih h with h2 | h2
        · exact Or.inl h2
        · exact Or.inr (List.mem_cons_of_mem y h2)

theorem insertSorted_pairwise (x : Str) (l : List Str)
    (h : List.Pairwise (fun a b => hillKeyLeB a b = true) l) :
    List.Pairwise (fun a b => hillKeyLeB a b = true) (insertSorted x l) := by
  induction l with
  | nil => simp [insertSorted]
  | cons y ys ih =>
    simp only [insertSorted]
    rcases List.pairwise_cons.mp h with ⟨hy, hys⟩
    cases hle : hillKeyLeB x y with
    | true =>
      simp only [if_true]
      refine List.pairwise_cons.mpr ⟨?_, h⟩
      intro z hz
      rcases List.mem_cons.mp hz with hz | hz
      · subst hz; exact hle
      · exact hillKeyLeB_trans x y z hle (hy z hz)
    | false =>
      simp only [Bool.false_eq_true, if_false]
      refine List.pairwise_cons.mpr ⟨?_, ih hys⟩
      intro z hz
      rcases insertSorted_mem x z ys hz with hz2 | hz2
      · subst hz2
        rcases hillKeyLeB_total z y with ht | ht
        · rw [hle] at ht
          exact Bool.noConfusion ht
        · exact ht
      · exact hy z hz2

theorem sortKeys_pairwise (l : List Str) :
    List.Pairwise (fun a b => hillKeyLeB a b = true) (sortKeys l) := by
  induction l with
  | nil => simp [sortKeys]
  | cons x xs ih => exact insertSorted_pairwise x (sortKeys xs) ih

theorem find?_map_keep (m : List (Str × Nat)) (k : Str) (f : Str × Nat → Str × Nat)
    (hf : ∀ p, (f p).1 = p.1) :
    (m.map f).find? (fun p => p.1 == k) = (m.find? (fun p => p.1 == k)).map f := by
  induction m with
  | nil => simp
  | cons p rest ih =>
    simp only [List.map_cons, List.find?]
    rw [hf p]
    cases hp : (p.1 == k) with
    | true => simp
    | false => simpa using ih

theorem find?_append_none (m l2 : List (Str × Nat)) (q : Str × Nat → Bool)
    (h : m.find? q = none) : (m ++ l2).find? q = l2.find? q := by
  induction m with
  | nil => simp
  | cons p rest ih =>
    simp only [List.find?] at h ⊢
    cases hp : q p with
    | true => rw [hp] at h; exact Option.noConfusion h
    | false =>
      rw [hp] at h
      simp only [List.cons_append, List.find?, hp]
      exact ih h

theorem any_false_find?_none (m : List (Str × Nat)) (q : Str × Nat → Bool)
    (h : m.any q = false) : m.find? q = none := by
  induction m with
  | nil => simp
  | cons p rest ih =>
    simp only [List.any_cons, Bool.or_eq_false_iff] at h
    simp only [List.find?, h.1]
    exact ih h.2

theorem find?_append_some (m l2 : List (Str × Nat)) (q : Str × Nat → Bool)
    (p : Str × Nat) (h : m.find? q = some p) : (m ++ l2).find? q = some p := by
  induction m with
  | nil => exact Option.noConfusion h
  | cons p2 rest ih =>
    simp only [List.find?] at h
    simp only [List.cons_append, List.find?]
    cases hp2 : q p2 with
    | true => rw [hp2] at h; simpa using h
    | false =>
      rw [hp2] at h
      exact ih h

theorem find?_none_any_false (m : List (Str × Nat)) (q : Str × Nat → Bool)
    (h : m.find? q = none) : m.any q = false := by
  induction m with
  | nil => simp
  | cons p rest ih =>
    simp only [List.find?] at h
    cases hp : q p with
    | true => rw [hp] at h; exact Option.noConfusion h
    | false =>
      rw [hp] at h
      simp only [List.any_cons, hp, Bool.false_or]
      exact ih h

theorem tallyGet_tallyAdd (m : List (Str × Nat)) (k k2 : Str) :
    tallyGet (tallyAdd m k2) k =
      if k = k2 then tallyGet m k + 1 else tallyGet m k := by
  unfold tallyAdd
  cases ha : m.any (fun p => p.1 == k2) with
  | true =>
    simp only [if_true]
    unfold tallyGet
    rw [find?_map_keep m k _ (fun p => by cases hp : (p.1 == k2) <;> simp [hp])]
    cases hf : m.find? (fun p => p.1 == k) with
    | none =>
      by_cases hk : k = k2
      · subst hk
        have hcontra := find?_none_any_false m _ hf
        rw [ha] at hcontra
        exact Bool.noConfusion hcontra
      · simp [hk]
    | some p =>
      have hp1 : p.1 = k := by
        have := List.find?_some hf
        simpa using this
      by_cases hk : k = k2
      · subst hk
        simp [hp1]
      · have hne : (p.1 == k2) = false := by
          simp only [beq_eq_false_iff_ne, ne_eq]
          rw [hp1]
          exact hk
        have hcond : ¬ (p.1 = k2) := by rw [hp1]; exact hk
        simp [hne, hk, hcond]
  | false =>
    simp only [Bool.false_eq_true, if_false]
    unfold tallyGet
    by_cases hk : k = k2
    · subst hk
      have hnone := any_false_find?_none m _ ha
      rw [find?_append_none m _ _ hnone]
      have hkk : ((k, (1 : Nat)).1 == k) = true := by simp
      simp [hnone, List.find?_cons, hkk]
    · cases hf : m.find? (fun p => p.1 == k) with
      | none =>
        rw [find?_append_none m _ _ hf]
        have hne : ((k2, (1 : Nat)).1 == k) = false := by
          simp only [beq_eq_false_iff_ne, ne_eq]
          exact fun hh => hk hh.symm
        have hL : List.find? (fun p : Str × Nat => p.1 == k) [(k2, 1)] = none := by
          simp only [List.find?_cons, hne]
          rfl
        simp [hL, hk]
      | some p =>
        rw [find?_append_some m _ _ p hf]
        simp [hk]

theorem tallyGet_foldl (l : List AtomCoordinate) (m : List (Str × Nat)) (k : Str) :
    tallyGet (l.foldl (fun m a => tallyAdd m (pyNormalize a.element)) m) k =
      tallyGet m k + l.countP (fun a => pyNormalize a.element == k) := by
  induction l generalizing m with
  | nil => simp
  | cons a rest ih =>
    simp only [List.foldl_cons]
    rw [ih]
    rw [tallyGet_tallyAdd]
    by_cases hk : k = pyNormalize a.element
    · rw [if_pos hk]
      have hb : (pyNormalize a.element == k) = true := by simp [hk]
      rw [List.countP_cons, hb, if_pos rfl]
      omega
    · rw [if_neg hk]
      have hb : (pyNormalize a.element == k) = false := by
        simp only [beq_eq_false_iff_ne, ne_eq]
        exact fun hh => hk hh.symm
      rw [List.countP_cons, hb, if_neg Bool.false_ne_true]
      omega

theorem tallyGet_tally (coords : List AtomCoordinate) (k : Str) :
    tallyGet (tally coords) k = coords.countP (fun a => pyNormalize a.element == k) := by
  unfold tally
  rw [tallyGet_foldl]
  simp [tallyGet]

theorem tallyAdd_keys (m : List (Str × Nat)) (k k2 : Str)
    (h : k ∈ (tallyAdd m k2).map Prod.fst) : k ∈ m.map Prod.fst ∨ k = k2 := by
  unfold tallyAdd at h
  cases ha : m.any (fun p => p.1 == k2) with
  | true =>
    rw [ha] at h
    simp only [if_true] at h
    left
    rw [List.map_map] at h
    have : (Prod.fst ∘ fun p : Str × Nat => if (p.1 == k2) = true then (p.1, p.2 + 1) else p)
        = Prod.fst := by
      funext p
      cases hp : (p.1 == k2) <;> simp [Function.comp, hp]
    rw [this] at h
    exact h
  | false =>
    rw [ha] at h
    simp only [Bool.false_eq_true, if_false, List.map_append, List.mem_append] at h
    rcases h with h | h
    · left; exact h
    · right; simpa using h

theorem tally_keys_from (l : List AtomCoordinate) (m : List (Str × Nat)) (k : Str)
    (h : k ∈ ((l.foldl (fun m a => tallyAdd m (pyNormalize a.element)) m).map Prod.fst)) :
    k ∈ m.map Prod.fst ∨ ∃ a, a ∈ l ∧ k = pyNormalize a.element := by
  induction l generalizing m with
  | nil => left; simpa using h
  | cons a rest ih =>
    simp only [List.foldl_cons] at h
    rcases ih (tallyAdd m (pyNormalize a.element)) h with h2 | h2
    · rcases tallyAdd_keys m k (pyNormalize a.element) h2 with h3 | h3
      · left; exact h3
      · right; exact ⟨a, List.mem_cons_self a rest, h3⟩
    · right
      obtain ⟨a2, ha2, hk2⟩ := h2
      exact ⟨a2, List.mem_cons_of_mem a ha2, hk2⟩

theorem splitOnPred_ne_nil (p : Char → Bool) (s : Str) : splitOnPred p s ≠ [] := by
  cases s with
  | nil => simp [splitOnPred]
  | cons c cs =>
    simp only [splitOnPred]
    cases h : splitOnPred p cs with
    | nil => simp
    | cons h2 t => cases hp : p c <;> simp

theorem splitLines_ne_nil (s : Str) : splitLines s ≠ [] :=
  splitOnPred_ne_nil _ s


def joinLines : List Str → Str
  | [] => []
  | [l] => l
  | l :: l2 :: ls => l ++ '\n' :: joinLines (l2 :: ls)

theorem splitOnPred_cons (p : Char → Bool) (c : Char) (cs : Str) :
    splitOnPred p (c :: cs) =
      if p c then [] :: splitOnPred p cs
      else (c :: (splitOnPred p cs).headI) :: (splitOnPred p cs).tail := by
  obtain ⟨h2, t, hsp⟩ := List.exists_cons_of_ne_nil (splitOnPred_ne_nil p cs)
  simp only [splitOnPred, hsp]
  cases hp : p c <;> simp

theorem splitLines_cons (c : Char) (cs : Str) :
    splitLines (c :: cs) =
      if c = '\n' then [] :: splitLines cs
      else (c :: (splitLines cs).headI) :: (splitLines cs).tail := by
  simp only [splitLines, splitOnChar]
  rw [splitOnPred_cons]
  by_cases hc : c = '\n'
  · simp [hc]
  · have : (c == '\n') = false := by simpa using hc
    simp [this, hc]

theorem joinLines_splitLines (s : Str) : joinLines (splitLines s) = s := by
  induction s with
  | nil => rfl
  | cons c cs ih =>
    rw [splitLines_cons]
    obtain ⟨h2, t, hsp⟩ := List.exists_cons_of_ne_nil (splitLines_ne_nil cs)
    rw [hsp] at ih ⊢
    by_cases hc : c = '\n'
    · simp only [hc, if_true]
      subst hc
      cases t with
      | nil =>
        simp only [joinLines] at ih ⊢
        simp [ih]
      | cons t1 t2 =>
        simp only [joinLines] at ih ⊢
        simp [ih]
    · simp only [hc, if_false, List.headI, List.tail_cons]
      cases t with
      | nil =>
        simp only [joinLines] at ih ⊢
        rw [ih]
      | cons t1 t2 =>
        simp only [joinLines] at ih ⊢
        rw [List.cons_append, ih]

theorem splitLines_no_newline (s : Str) (h : '\n' ∉ s) : splitLines s = [s] := by
  induction s with
  | nil => rfl
  | cons c cs ih =>
    simp only [List.mem_cons, not_or] at h
    rw [splitLines_cons]
    have hi := ih h.2
    rw [hi]
    have hc : ¬ c = '\n' := fun hh => h.1 hh.symm
    simp [hc]

theorem mem_splitLines_no_newline (s : Str) : ∀ l ∈ splitLines s, '\n' ∉ l := by
  induction s with
  | nil =>
    intro l hl
    simp only [splitLines, splitOnChar, splitOnPred, List.mem_singleton] at hl
    simp [hl]
  | cons c cs ih =>
    intro l hl
    rw [splitLines_cons] at hl
    obtain ⟨h2, t, hsp⟩ := List.exists_cons_of_ne_nil (splitLines_ne_nil cs)
    rw [hsp] at hl
    by_cases hc : c = '\n'
    · simp only [hc, if_true, List.mem_cons] at hl
      rcases hl with hl | hl
      · simp [hl]
      · exact ih l (by rw [hsp]; exact List.mem_cons.mpr hl)
    · simp only [hc, if_false, List.headI, List.tail, List.mem_cons] at hl
      rcases hl with hl | hl
      · subst hl
        simp only [List.mem_cons, not_or]
        exact ⟨fun hh => hc hh.symm,
          ih h2 (by rw [hsp]; exact List.mem_cons_self h2 t)⟩
      · exact ih l (by rw [hsp]; exact List.mem_cons_of_mem h2 hl)

theorem splitLines_append_newline (a b : Str) :
    splitLines (a ++ '\n' :: b) = splitLines a ++ splitLines b := by
  induction a with
  | nil =>
    simp only [List.nil_append]
    rw [splitLines_cons]
    simp [splitLines, splitOnChar, splitOnPred]
  | cons c cs ih =>
    simp only [List.cons_append]
    rw [splitLines_cons, splitLines_cons]
    obtain ⟨h2, t, hsp⟩ := List.exists_cons_of_ne_nil (splitLines_ne_nil cs)
    rw [ih, hsp]
    by_cases hc : c = '\n'
    · simp [hc]
    · simp [hc]

/-- Every nonempty suffix contains a non-whitespace character. -/
def allSuffNonWs : Str → Bool
  | [] => true
  | c :: r => (c :: r).any (fun x => !pyIsSpace x) && allSuffNonWs r

theorem allSuffNonWs_tail {c : Char} {r : Str} (h : allSuffNonWs (c :: r) = true) :
    allSuffNonWs r = true := by
  simp only [allSuffNonWs, Bool.and_eq_true] at h
  exact h.2

theorem prefix_allws_false (n : Str) (hn : allSuffNonWs n = true) (hne : n ≠ []) :
    ∀ w : Str, w.all pyIsSpace = true → n.isPrefixOf w = false := by
  induction n with
  | nil => exact absurd rfl hne
  | cons c n2 ih =>
    intro w hw
    cases w with
    | nil => rfl
    | cons d w2 =>
      simp only [List.isPrefixOf]
      simp only [List.all_cons, Bool.and_eq_true] at hw
      have hany : (c :: n2).any (fun x => !pyIsSpace x) = true := by
        simp only [allSuffNonWs, Bool.and_eq_true] at hn
        exact hn.1
      cases hc : pyIsSpace c with
      | false =>
        have : (c == d) = false := by
          simp only [beq_eq_false_iff_ne, ne_eq]
          intro hh
          rw [hh] at hc
          rw [hw.1] at hc
          exact Bool.noConfusion hc
        simp [this]
      | true =>
        cases n2 with
        | nil =>
          exfalso
          simp only [List.any_cons, List.any_nil, Bool.or_false] at hany
          rw [hc] at hany
          simp at hany
        | cons c2 n3 =>
          have := ih (allSuffNonWs_tail hn) (by simp) w2 hw.2
          simp [this]

theorem isPrefixOf_append_ws (n a w : Str) (hn : allSuffNonWs n = true)
    (hw : w.all pyIsSpace = true) : n.isPrefixOf (a ++ w) = n.isPrefixOf a := by
  induction a generalizing n with
  | nil =>
    cases n with
    | nil => simp [List.isPrefixOf]
    | cons c n2 =>
      simp only [List.nil_append]
      rw [prefix_allws_false (c :: n2) hn (by simp) w hw]
      rfl
  | cons x a2 ih =>
    cases n with
    | nil => simp [List.isPrefixOf]
    | cons c n2 =>
      rw [show (c :: n2).isPrefixOf ((x :: a2) ++ w) = (c == x && n2.isPrefixOf (a2 ++ w)) from rfl]
      rw [show (c :: n2).isPrefixOf (x :: a2) = (c == x && n2.isPrefixOf a2) from rfl]
      rw [ih n2 (allSuffNonWs_tail hn)]

theorem containsSub_cons (n : Str) (c : Char) (cs : Str) :
    containsSub n (c :: cs) = (n.isPrefixOf (c :: cs) || containsSub n cs) := by
  unfold containsSub findSubIdx
  cases hp : n.isPrefixOf (c :: cs) with
  | true => simp
  | false =>
    simp only [Bool.false_eq_true, if_false, Bool.false_or, Option.isSome_map']
    cases cs <;> rfl

theorem containsSub_nil_false (n : Str) (h : n ≠ []) : containsSub n [] = false := by
  unfold containsSub findSubIdx
  cases n with
  | nil => exact absurd rfl h
  | cons c cs => simp

theorem containsSub_allws_false (n : Str) (hn : allSuffNonWs n = true) (hne : n ≠ []) :
    ∀ w : Str, w.all pyIsSpace = true → containsSub n w = false := by
  intro w
  induction w with
  | nil => intro _; exact containsSub_nil_false n hne
  | cons d w2 ih =>
    intro hw
    simp only [List.all_cons, Bool.and_eq_true] at hw
    rw [containsSub_cons]
    rw [prefix_allws_false n hn hne (d :: w2) (by simp [hw.1, hw.2])]
    rw [ih hw.2]
    rfl

theorem containsSub_cons_ws (n : Str) (c : Char) (l : Str)
    (hhead : ∀ c2 cs2, n = c2 :: cs2 → pyIsSpace c2 = false) (hne : n ≠ [])
    (hc : pyIsSpace c = true) :
    containsSub n (c :: l) = containsSub n l := by
  rw [containsSub_cons]
  cases n with
  | nil => exact absurd rfl hne
  | cons c2 cs2 =>
    have hcc : (c2 == c) = false := by
      simp only [beq_eq_false_iff_ne, ne_eq]
      intro hh
      have := hhead c2 cs2 rfl
      rw [hh, hc] at this
      exact Bool.noConfusion this
    simp [List.isPrefixOf, hcc]

theorem containsSub_ws_front (n : Str) (w l : Str)
    (hhead : ∀ c2 cs2, n = c2 :: cs2 → pyIsSpace c2 = false) (hne : n ≠ [])
    (hw : w.all pyIsSpace = true) :
    containsSub n (w ++ l) = containsSub n l := by
  induction w with
  | nil => rfl
  | cons d w2 ih =>
    simp only [List.all_cons, Bool.and_eq_true] at hw
    rw [List.cons_append, containsSub_cons_ws n d (w2 ++ l) hhead hne hw.1]
    exact ih hw.2

theorem containsSub_ws_suffix (n : Str) (l w : Str) (hn : allSuffNonWs n = true)
    (hne : n ≠ []) (hw : w.all pyIsSpace = true) :
    containsSub n (l ++ w) = containsSub n l := by
  induction l with
  | nil =>
    simp only [List.nil_append]
    rw [containsSub_allws_false n hn hne w hw, containsSub_nil_false n hne]
  | cons c l2 ih =>
    have h1 : containsSub n ((c :: l2) ++ w) =
        (n.isPrefixOf ((c :: l2) ++ w) || containsSub n (l2 ++ w)) := by
      rw [List.cons_append, containsSub_cons]
    rw [h1, containsSub_cons, isPrefixOf_append_ws n (c :: l2) w hn hw, ih]

theorem dropWhile_append_of_ne_nil (p : Char → Bool) (a b : Str)
    (h : a.dropWhile p ≠ []) : (a ++ b).dropWhile p = a.dropWhile p ++ b := by
  induction a with
  | nil => exact absurd rfl h
  | cons c cs ih =>
    cases hp : p c with
    | true =>
      rw [List.dropWhile_cons_of_pos hp] at h ⊢
      rw [List.cons_append, List.dropWhile_cons_of_pos hp]
      exact ih h
    | false =>
      rw [List.cons_append, List.dropWhile_cons_of_neg (by simp [hp]),
        List.dropWhile_cons_of_neg (by simp [hp]), List.cons_append]

theorem dropWhile_append_of_all (p : Char → Bool) (a b : Str)
    (h : a.all p = true) : (a ++ b).dropWhile p = b.dropWhile p := by
  induction a with
  | nil => rfl
  | cons c cs ih =>
    simp only [List.all_cons, Bool.and_eq_true] at h
    rw [List.cons_append, List.dropWhile_cons_of_pos h.1]
    exact ih h.2

theorem takeWhile_all (p : Char → Bool) (l : Str) : (l.takeWhile p).all p = true := by
  induction l with
  | nil => rfl
  | cons c cs ih =>
    cases hp : p c with
    | true => rw [List.takeWhile_cons_of_pos hp]; simp [hp, ih]
    | false => rw [List.takeWhile_cons_of_neg (by simp [hp])]; rfl

theorem pyRStrip_append_ws (a w : Str) (hw : w.all pyIsSpace = true) :
    pyRStrip (a ++ w) = pyRStrip a := by
  unfold pyRStrip
  rw [List.reverse_append]
  rw [dropWhile_append_of_all pyIsSpace w.reverse a.reverse (by simpa using hw)]

theorem pyStrip_append_ws (a w : Str) (hw : w.all pyIsSpace = true) :
    pyStrip (a ++ w) = pyStrip a := by
  unfold pyStrip
  rw [pyRStrip_append_ws a w hw]

theorem all_ws_reverse (l : Str) (h : l.all pyIsSpace = true) :
    l.reverse.all pyIsSpace = true := by simpa using h

theorem pyRStrip_append_newline_nonblank (a l : Str) (hl : l.all pyIsSpace = false) :
    pyRStrip (a ++ '\n' :: l) = a ++ '\n' :: pyRStrip l := by
  unfold pyRStrip
  rw [List.reverse_append, List.reverse_cons]
  have hne : l.reverse.dropWhile pyIsSpace ≠ [] := by
    rw [Ne, List.dropWhile_eq_nil_iff]
    intro hall
    have : l.all pyIsSpace = true := by
      rw [List.all_eq_true]
      intro x hx
      exact hall x (by simpa using hx)
    rw [this] at hl
    exact Bool.noConfusion hl
  rw [List.append_assoc, dropWhile_append_of_ne_nil pyIsSpace l.reverse _ hne]
  rw [List.reverse_append]
  simp

theorem pyRStrip_decomp (l : Str) :
    ∃ w, w.all pyIsSpace = true ∧ l = pyRStrip l ++ w := by
  refine ⟨(l.reverse.takeWhile pyIsSpace).reverse, by simpa using takeWhile_all pyIsSpace l.reverse, ?_⟩
  unfold pyRStrip
  rw [← List.reverse_append]
  rw [List.takeWhile_append_dropWhile]
  simp

theorem pyStrip_decomp (l : Str) :
    ∃ w1 w2, w1.all pyIsSpace = true ∧ w2.all pyIsSpace = true ∧
      l = w1 ++ pyStrip l ++ w2 := by
  obtain ⟨w2, hw2, hl⟩ := pyRStrip_decomp l
  refine ⟨(pyRStrip l).takeWhile pyIsSpace, w2, takeWhile_all pyIsSpace (pyRStrip l), hw2, ?_⟩
  conv_lhs => rw [hl]
  unfold pyStrip pyLStrip
  rw [List.takeWhile_append_dropWhile]

theorem all_ws_pyStrip_nil (l : Str) (h : l.all pyIsSpace = true) : pyStrip l = [] := by
  unfold pyStrip pyRStrip pyLStrip
  have : l.reverse.dropWhile pyIsSpace = [] := by
    rw [List.dropWhile_eq_nil_iff]
    intro x hx
    rw [List.all_eq_true] at h
    exact h x (by simpa using hx)
  rw [this]
  rfl

theorem mem_pyStrip (l : Str) (c : Char) (h : c ∈ pyStrip l) : c ∈ l := by
  unfold pyStrip pyLStrip pyRStrip at h
  have h2 := List.Sublist.mem h (List.dropWhile_sublist pyIsSpace)
  have h3 := List.mem_reverse.mp h2
  have h4 := List.Sublist.mem h3 (List.dropWhile_sublist pyIsSpace)
  exact List.mem_reverse.mp h4

theorem getLastD_of_ne_nil (l : List Str) (a b : Str) (h : l ≠ []) :
    l.getLastD a = l.getLastD b := by
  cases l with
  | nil => exact absurd rfl h
  | cons x xs => rw [List.getLastD_cons, List.getLastD_cons]

theorem getLastD_append_ne_nil (xs ys : List Str) (d : Str) (h : ys ≠ []) :
    (xs ++ ys).getLastD d = ys.getLastD d := by
  induction xs with
  | nil => rfl
  | cons x xs2 ih =>
    rw [List.cons_append, List.getLastD_cons]
    have hne : (xs2 ++ ys) ≠ [] := by
      intro hcontra
      rcases List.append_eq_nil.mp hcontra with ⟨_, h2⟩
      exact h h2
    rw [getLastD_of_ne_nil (xs2 ++ ys) x d hne]
    exact ih

theorem lastNB_append (ls : List Str) (l : Str) :
    lastNB (ls ++ [l]) = if l.all pyIsSpace then lastNB ls else some l := by
  unfold lastNB
  rw [List.reverse_append]
  simp only [List.reverse_singleton, List.singleton_append]
  rw [show lastNBgo (l :: ls.reverse) =
    (if l.all pyIsSpace then lastNBgo ls.reverse else some l) from rfl]

theorem needleNT_head : ∀ c2 cs2, needleNT = c2 :: cs2 → pyIsSpace c2 = false := by
  intro c2 cs2 h
  have h2 : needleNT = 'N' :: str "ormal termination" := by rfl
  rw [h2] at h
  injection h with h1 _
  rw [← h1]
  rfl

theorem needleNT_ne_nil : needleNT ≠ [] := by
  intro h
  exact absurd (congrArg List.length h) (by decide)

theorem needleNT_suff : allSuffNonWs needleNT = true := by decide

theorem mem_pyRStrip (l : Str) (c : Char) (h : c ∈ pyRStrip l) : c ∈ l := by
  unfold pyRStrip at h
  have h2 := List.mem_reverse.mp h
  have h3 := List.Sublist.mem h2 (List.dropWhile_sublist pyIsSpace)
  exact List.mem_reverse.mp h3

theorem joinLines_append (ls : List Str) (l : Str) (h : ls ≠ []) :
    joinLines (ls ++ [l]) = joinLines ls ++ '\n' :: l := by
  induction ls with
  | nil => exact absurd rfl h
  | cons x ls2 ih =>
    cases ls2 with
    | nil => rfl
    | cons y ls3 =>
      have hih := ih (by simp)
      have e1 : joinLines ((x :: y :: ls3) ++ [l]) =
          x ++ '\n' :: joinLines ((y :: ls3) ++ [l]) := rfl
      have e2 : joinLines (x :: y :: ls3) = x ++ '\n' :: joinLines (y :: ls3) := rfl
      rw [e1, hih, e2]
      simp

theorem contains_lastline_lstrip (u : Str) :
    containsSub needleNT (pyLastLine (splitLines (pyLStrip u))) =
      containsSub needleNT (pyLastLine (splitLines u)) := by
  induction u with
  | nil => rfl
  | cons c u2 ih =>
    cases hc : pyIsSpace c with
    | false =>
      have : pyLStrip (c :: u2) = c :: u2 := by
        unfold pyLStrip
        rw [List.dropWhile_cons_of_neg (by simp [hc])]
      rw [this]
    | true =>
      have hl : pyLStrip (c :: u2) = pyLStrip u2 := by
        unfold pyLStrip
        rw [List.dropWhile_cons_of_pos hc]
      rw [hl, ih]
      rw [splitLines_cons]
      obtain ⟨h2, t, hsp⟩ := List.exists_cons_of_ne_nil (splitLines_ne_nil u2)
      by_cases hcn : c = '\n'
      · simp only [hcn, if_true]
        unfold pyLastLine
        rw [List.getLastD_cons]
      · simp only [hcn, if_false]
        rw [hsp]
        unfold pyLastLine
        simp only [List.headI, List.tail_cons]
        cases t with
        | nil =>
          rw [List.getLastD_cons, List.getLastD_cons]
          simp only [List.getLastD_nil]
          exact (containsSub_cons_ws needleNT c h2 needleNT_head needleNT_ne_nil hc).symm
        | cons t1 t2 =>
          rw [List.getLastD_cons [] h2 (t1 :: t2),
            List.getLastD_cons [] (c :: h2) (t1 :: t2),
            getLastD_of_ne_nil (t1 :: t2) h2 (c :: h2) (by simp)]

theorem contains_pyStrip (l : Str) :
    containsSub needleNT (pyStrip l) = containsSub needleNT l := by
  obtain ⟨w1, w2, hw1, hw2, hl⟩ := pyStrip_decomp l
  conv_rhs => rw [hl]
  rw [containsSub_ws_suffix needleNT (w1 ++ pyStrip l) w2 needleNT_suff needleNT_ne_nil hw2]
  rw [containsSub_ws_front needleNT w1 (pyStrip l) needleNT_head needleNT_ne_nil hw1]

theorem contains_pyRStrip (l : Str) :
    containsSub needleNT (pyRStrip l) = containsSub needleNT l := by
  obtain ⟨w, hw, hl⟩ := pyRStrip_decomp l
  conv_rhs => rw [hl]
  rw [containsSub_ws_suffix needleNT (pyRStrip l) w needleNT_suff needleNT_ne_nil hw]

theorem main_lastline : ∀ ls : List Str, (∀ l ∈ ls, '\n' ∉ l) → ls ≠ [] →
    containsSub needleNT (pyLastLine (splitLines (pyStrip (joinLines ls)))) =
      (match lastNB ls with
       | none => false
       | some L => containsSub needleNT L) := by
  intro ls
  induction ls using List.reverseRecOn with
  | nil => intro _ hne; exact absurd rfl hne
  | append_singleton ls l ih =>
    intro hnl _
    have hnll : '\n' ∉ l := hnl l (by simp)
    cases hls : ls.isEmpty with
    | true =>
      have : ls = [] := by simpa using hls
      subst this
      simp only [List.nil_append]
      have hj : joinLines [l] = l := rfl
      rw [hj]
      rw [show lastNB [l] = (if l.all pyIsSpace then none else some l) from rfl]
      cases hb : l.all pyIsSpace with
      | true =>
        rw [all_ws_pyStrip_nil l hb]
        rw [show splitLines ([] : Str) = [[]] from rfl]
        rw [show pyLastLine [([] : Str)] = [] from rfl]
        rw [containsSub_nil_false needleNT needleNT_ne_nil]
        rw [if_pos rfl]
      | false =>
        rw [if_neg Bool.false_ne_true]
        have hnlstrip : '\n' ∉ pyStrip l := fun hm => hnll (mem_pyStrip l '\n' hm)
        rw [splitLines_no_newline (pyStrip l) hnlstrip]
        rw [show pyLastLine [pyStrip l] = pyStrip l from rfl]
        exact contains_pyStrip l
    | false =>
      have hlsne : ls ≠ [] := by
        intro hcontra
        rw [hcontra] at hls
        exact Bool.noConfusion hls
      rw [joinLines_append ls l hlsne]
      rw [lastNB_append ls l]
      cases hb : l.all pyIsSpace with
      | true =>
        rw [if_pos rfl]
        have hall : ('\n' :: l).all pyIsSpace = true := by
          simp only [List.all_cons, hb]
          rfl
        rw [pyStrip_append_ws (joinLines ls) ('\n' :: l) hall]
        exact ih (fun l2 hl2 => hnl l2 (List.mem_append_left [l] hl2)) hlsne
      | false =>
        rw [if_neg Bool.false_ne_true]
        have hstrip : pyStrip (joinLines ls ++ '\n' :: l) =
            pyLStrip (joinLines ls ++ '\n' :: pyRStrip l) := by
          unfold pyStrip
          rw [pyRStrip_append_newline_nonblank (joinLines ls) l hb]
        rw [hstrip]
        rw [contains_lastline_lstrip (joinLines ls ++ '\n' :: pyRStrip l)]
        rw [splitLines_append_newline (joinLines ls) (pyRStrip l)]
        have hnlr : '\n' ∉ pyRStrip l := fun hm => hnll (mem_pyRStrip l '\n' hm)
        rw [splitLines_no_newline (pyRStrip l) hnlr]
        unfold pyLastLine
        rw [getLastD_append_ne_nil (splitLines (joinLines ls)) [pyRStrip l] [] (by simp)]
        rw [show ([pyRStrip l] : List Str).getLastD [] = pyRStrip l from rfl]
        exact contains_pyRStrip l

theorem checkNT_iff (chunk : Str) :
    check_normal_termination (some chunk) = true ↔
      ∃ L, lastNonBlankLine chunk = some L ∧ containsSub needleNT L = true := by
  unfold lastNonBlankLine
  have hmain := main_lastline (splitLines chunk) (mem_splitLines_no_newline chunk)
    (splitLines_ne_nil chunk)
  rw [joinLines_splitLines] at hmain
  rw [show check_normal_termination (some chunk) =
    containsSub needleNT (pyLastLine (splitLines (pyStrip chunk))) from rfl]
  rw [hmain]
  cases h : lastNB (splitLines chunk) with
  | none => simp
  | some L => simp

theorem extractCoordinatesI_fst (f : FileModel) :
    (extractCoordinatesI f).1 = extract_coordinates f := by
  unfold extractCoordinatesI extract_coordinates
  cases f.content with
  | none => rfl
  | some c =>
    cases detect_file_type f.ext with
    | gaussian_input => rfl
    | gaussian_log =>
      simp only []
      cases check_normal_termination f.tailRead with
      | true =>
        simp only [if_true]
        cases (extract_from_punch c).isEmpty <;> rfl
      | false => rfl
    | molpro => rfl
    | unknown => rfl

theorem listGetE_ok_of_length (l : List Str) (h : 4 ≤ l.length) :
    listGetE l 3 = Except.ok (l.getD 3 []) := by
  match l, h with
  | a :: b :: c :: d :: t, _ => rfl

theorem extract_from_punchE_ok (c : Str) :
    extract_from_punchE c = Except.ok (extract_from_punch c) := by
  unfold extract_from_punchE extract_from_punch
  cases hp : find_punch_string c with
  | none => rfl
  | some p =>
    simp only []
    by_cases hlen : (splitOnDBS (stripWS p)).length < 4
    · rw [if_pos hlen, if_pos hlen]
    · rw [if_neg hlen, if_neg hlen]
      rw [listGetE_ok_of_length (splitOnDBS (stripWS p)) (by omega)]

def atomC11 : AtomCoordinate :=
  { element := str "C", x := PyFloat.finite 0, y := PyFloat.finite 0,
    z := PyFloat.finite (mkRat 11 10) }

def atomH000 : AtomCoordinate :=
  { element := str "H", x := PyFloat.finite 0, y := PyFloat.finite 0,
    z := PyFloat.finite 0 }

/-- A small normally-terminated Gaussian log with a punch string whose
coordinate section holds one carbon and one hydrogen. -/
def c1exContent : Str :=
  str "x\\\\y\\\\z\\\\C,0.,0.,1.1\\H,0.,0.,0.\\\\@\nThe archive entry for this job was punched.\nNormal termination of Gaussian 16"

def c1exFile : FileModel :=
  { ext := str ".log", content := some c1exContent,
    tailRead := some (tailChunk c1exContent) }

/-- The same log, but the final line is longer than 1000 bytes and the
phrase `Normal termination` sits before the final-1000-byte boundary. -/
def c1cexYs : Str := List.replicate 1100 'y'

def c1cexLastLine : Str := str "Normal termination seen early " ++ c1cexYs

def c1cexPre : Str :=
  str "x\\\\y\\\\z\\\\C,0.,0.,1.1\\H,0.,0.,0.\\\\@\nThe archive entry for this job was punched."

def c1cexContent : Str := c1cexPre ++ '\n' :: c1cexLastLine

def c1cexFile : FileModel :=
  { ext := str ".log", content := some c1cexContent,
    tailRead := some (tailChunk c1cexContent) }

def c1cexPunch : Str := str "x\\\\y\\\\z\\\\C,0.,0.,1.1\\H,0.,0.,0.\\\\@"

theorem strict_imp_broad (el : Str) (h : matchStrictElement el = true) :
    matchBroadElement el = true := by
  unfold matchStrictElement at h
  unfold matchBroadElement
  simp only [Bool.and_eq_true] at h
  have htw : el.takeWhile isAsciiLetter = el := by
    rw [List.takeWhile_eq_self_iff]
    intro x hx
    rw [List.all_eq_true] at h
    exact h.2 x hx
  have hdw : el.dropWhile isAsciiLetter = [] := by
    rw [List.dropWhile_eq_nil_iff]
    intro x hx
    rw [List.all_eq_true] at h
    exact h.2 x hx
  rw [htw, hdw]
  simp [h.1]

/-- C3 (amended): in punch-string coordinate extraction an atom entry's
element field is accepted if and only if it matches the broader pattern
`^[A-Za-z]+(?:-[A-Za-z0-9]+)?$`; the nested strict `^[A-Za-z]+$` check is
dead code because it is only consulted when the broader pattern has already
failed, and the strict pattern implies the broader one.  In particular a
hyphenated isotope-tagged symbol such as `C-13` is accepted, not skipped. -/
theorem c3_amended :
    (∀ e p0 p1 p2 p3 : Str, ∀ f1 f2 f3 : PyFloat,
      splitOnChar ',' e = [p0, p1, p2, p3] →
      pyFloatParse p1 = some f1 → pyFloatParse p2 = some f2 →
      pyFloatParse p3 = some f3 →
      parsePunchEntry e =
        (if matchBroadElement (pyStrip p0) then
          some { element := pyStrip p0, x := f1, y := f2, z := f3 }
         else none)) ∧
    (∀ el : Str, matchStrictElement el = true → matchBroadElement el = true) := by
  constructor
  · intro e p0 p1 p2 p3 f1 f2 f3 hsplit h1 h2 h3
    have hne : e.isEmpty = false := by
      cases e with
      | nil => simp [splitOnChar, splitOnPred] at hsplit
      | cons c cs => rfl
    unfold parsePunchEntry
    rw [hne]
    simp only [Bool.false_eq_true, if_false]
    rw [hsplit]
    dsimp only
    unfold punchEntryFloats
    rw [h1, h2, h3]
    by_cases hbp : matchBroadElement (pyStrip p0) = true
    · rw [if_neg (by rw [hbp]; simp), if_pos hbp]
    · have hb : matchBroadElement (pyStrip p0) = false := by
        cases hx : matchBroadElement (pyStrip p0)
        · rfl
        · exact absurd hx hbp
      have hs : matchStrictElement (pyStrip p0) = false := by
        cases hx : matchStrictElement (pyStrip p0)
        · rfl
        · exact absurd (strict_imp_broad _ hx) (by
            rw [hb]
            exact fun hh => Bool.noConfusion hh)
      rw [if_pos (by rw [hb]; simp), if_pos (by rw [hs]; simp), if_neg hbp]
  · exact strict_imp_broad

/-- C3 (counterexample): the punch entry `C-13,0.,0.,0.` is accepted even
though `C-13` fails the strict pattern `^[A-Za-z]+$`; the claim that such
entries are skipped is false on the code. -/
theorem c3_counterexample :
    parsePunchEntry (str "C-13,0.,0.,0.") =
      some { element := str "C-13", x := PyFloat.finite 0, y := PyFloat.finite 0,
             z := PyFloat.finite 0 } ∧
    matchStrictElement (str "C-13") = false := by decide

theorem c3_witness :
    parsePunchEntry (str "Cl,1.,2.,3.") =
      (if matchBroadElement (pyStrip (str "Cl")) then
        some { element := pyStrip (str "Cl"), x := PyFloat.finite 1,
               y := PyFloat.finite 2, z := PyFloat.finite 3 }
       else none) :=
  c3_amended.1 (str "Cl,1.,2.,3.") (str "Cl") (str "1.") (str "2.") (str "3.")
    (PyFloat.finite 1) (PyFloat.finite 2) (PyFloat.finite 3)
    (by decide) (by decide) (by decide) (by decide)


/-- C5 (counterexample): an input-file coordinate line whose element token
is lowercase `c` produces an `AtomCoordinate` whose element is stored
verbatim as `c`, not case-normalized to `C`; the claimed invariant is false
for the extraction strategies. -/
theorem c5_counterexample :
    extract_from_input_file (str "0 1\nc 1. 2. 3.") =
      [{ element := str "c", x := PyFloat.finite 1, y := PyFloat.finite 2,
         z := PyFloat.finite 3 }] ∧
    pyNormalize (str "c") = str "C" ∧ str "c" ≠ str "C" := by decide

/-- C5 (amended): the extraction strategies store the element symbol
verbatim as found in the file (the input-line classifier copies the
stripped first token unchanged); case normalization (Title Case for
multi-letter symbols, uppercase otherwise) happens only inside the formula
generator when tallying, so every tally key is the normalization of some
stored element, and e.g. stored `CL` and `c` render as `Cl` and `C`. -/
theorem c5_amended :
    (∀ line : Str, ∀ a : AtomCoordinate,
      parse_input_coordinate_line line = some a →
      a.element = pyStrip ((pySplitWS line).getD 0 [])) ∧
    (∀ coords : List AtomCoordinate, ∀ k : Str,
      k ∈ (tally coords).map Prod.fst →
      ∃ a, a ∈ coords ∧ k = pyNormalize a.element) ∧
    generate_formula
      [{ element := str "CL", x := PyFloat.finite 0, y := PyFloat.finite 0,
         z := PyFloat.finite 0 }] = str "Cl" ∧
    generate_formula
      [{ element := str "c", x := PyFloat.finite 0, y := PyFloat.finite 0,
         z := PyFloat.finite 0 }] = str "C" := by
  refine ⟨?_, ?_, by decide, by decide⟩
  · intro line a h
    simp only [parse_input_coordinate_line] at h
    by_cases hlen : 4 ≤ (pySplitWS line).length
    · rw [if_pos hlen] at h
      by_cases hel : matchStrictElement (pyStrip ((pySplitWS line).getD 0 [])) = true
      · rw [if_pos hel] at h
        cases hf1 : pyFloatParse ((pySplitWS line).getD 1 []) with
        | none => rw [hf1] at h; exact Option.noConfusion h
        | some x =>
          rw [hf1] at h
          cases hf2 : pyFloatParse ((pySplitWS line).getD 2 []) with
          | none => rw [hf2] at h; exact Option.noConfusion h
          | some y =>
            rw [hf2] at h
            cases hf3 : pyFloatParse ((pySplitWS line).getD 3 []) with
            | none => rw [hf3] at h; exact Option.noConfusion h
            | some z =>
              rw [hf3] at h
              dsimp only at h
              injection h with h2
              rw [← h2]
      · rw [if_neg hel] at h
        exact Option.noConfusion h
    · rw [if_neg hlen] at h
      exact Option.noConfusion h
  · intro coords k hk
    unfold tally at hk
    rcases tally_keys_from coords [] k hk with h | h
    · simp at h
    · exact h

theorem c5_witness :
    ({ element := str "cl", x := PyFloat.finite 1, y := PyFloat.finite 2,
       z := PyFloat.finite 3 } : AtomCoordinate).element =
      pyStrip ((pySplitWS (str "cl 1. 2. 3.")).getD 0 []) :=
  c5_amended.1 (str "cl 1. 2. 3.")
    { element := str "cl", x := PyFloat.finite 1, y := PyFloat.finite 2,
      z := PyFloat.finite 3 } (by decide)

/-- C6 (counterexample): Python `float` accepts `inf`, so the line
`H inf 0.0 0.0` parses to a coordinate with an infinite x; the claim that
non-finite values yield no match is false on the code. -/
theorem c6_counterexample :
    parse_input_coordinate_line (str "H inf 0.0 0.0") =
      some { element := str "H", x := PyFloat.inf, y := PyFloat.finite 0,
             z := PyFloat.finite 0 } ∧
    pyFloatParse (str "inf") = some PyFloat.inf := by decide

/-- C6 (amended): `parseElementLine` returns a match if and only if the
line splits on whitespace into at least 4 tokens, token 0 matches
`^[A-Za-z]+$`, and tokens 1-3 each parse under Python `float` (which also
accepts infinities and NaN, so non-finite values are matched too); any
violation yields no match rather than an error. -/
theorem c6_amended (line : Str) :
    (parse_input_coordinate_line line).isSome = true ↔
      (4 ≤ (pySplitWS line).length ∧
       matchStrictElement (pyStrip ((pySplitWS line).getD 0 [])) = true ∧
       (pyFloatParse ((pySplitWS line).getD 1 [])).isSome = true ∧
       (pyFloatParse ((pySplitWS line).getD 2 [])).isSome = true ∧
       (pyFloatParse ((pySplitWS line).getD 3 [])).isSome = true) := by
  simp only [parse_input_coordinate_line]
  by_cases hlen : 4 ≤ (pySplitWS line).length
  · rw [if_pos hlen]
    by_cases hel : matchStrictElement (pyStrip ((pySplitWS line).getD 0 [])) = true
    · rw [if_pos hel]
      cases hf1 : pyFloatParse ((pySplitWS line).getD 1 []) <;>
        cases hf2 : pyFloatParse ((pySplitWS line).getD 2 []) <;>
          cases hf3 : pyFloatParse ((pySplitWS line).getD 3 []) <;>
            dsimp only <;>
              simp only [Option.isSome_some, Option.isSome_none, Bool.false_eq_true] <;>
                tauto
    · rw [if_neg hel]
      simp only [Option.isSome_none, Bool.false_eq_true, false_iff, not_and]
      intro _ hel2
      exact absurd hel2 hel
  · rw [if_neg hlen]
    simp only [Option.isSome_none, Bool.false_eq_true, false_iff, not_and]
    intro hcon
    exact absurd hcon hlen

def exEthylene : List AtomCoordinate :=
  [{ element := str "C", x := PyFloat.finite 0, y := PyFloat.finite 0, z := PyFloat.finite 0 },
   { element := str "C", x := PyFloat.finite 0, y := PyFloat.finite 0, z := PyFloat.finite 0 },
   atomH000, atomH000, atomH000, atomH000]

def exWater : List AtomCoordinate :=
  [{ element := str "O", x := PyFloat.finite 0, y := PyFloat.finite 0, z := PyFloat.finite 0 },
   atomH000, atomH000]

/-- C9 (confirmed): the formula generator tallies counts per normalized
element symbol, orders carbon first, hydrogen second and the remaining
elements alphabetically (the rendered key sequence is sorted under the
Hill key order), omits the count suffix for count 1, and in particular
maps `[C,C,H,H,H,H]` to `C2H4`, `[O,H,H]` to `H2O` and `[]` to the empty
string. -/
theorem c9_formula :
    generate_formula [] = [] ∧
    generate_formula exEthylene = str "C2H4" ∧
    generate_formula exWater = str "H2O" ∧
    (∀ coords : List AtomCoordinate,
      List.Pairwise (fun a b => hillKeyLeB a b = true)
        (sortKeys ((tally coords).map Prod.fst))) ∧
    (∀ coords : List AtomCoordinate, ∀ k : Str,
      tallyGet (tally coords) k =
        coords.countP (fun a => pyNormalize a.element == k)) :=
  ⟨rfl, by decide, by decide, fun _ => sortKeys_pairwise _, tallyGet_tally⟩

/-- A MOLPRO input with two geometry blocks: the first holds no parseable
coordinate line, the second holds one hydrogen. -/
def c2exContent : Str :=
  str "geom=\x7b\nq\n\x7d\ngeometry=\x7b\nH 0. 0. 0.\n\x7d"

def c2exFile : FileModel :=
  { ext := str ".in", content := some c2exContent, tailRead := none }

/-- C2 (counterexample): with two geometry blocks where only the second
contains valid coordinate lines, extraction returns the second block's
coordinates, not the empty list: later blocks are consulted when the first
block yields nothing. -/
theorem c2_counterexample :
    molproGo c2exContent = [str "\nq\n", str "\nH 0. 0. 0.\n"] ∧
    parseMolproBlock (str "\nq\n") = [] ∧
    parseMolproBlock (str "\nH 0. 0. 0.\n") = [atomH000] ∧
    extract_coordinates c2exFile = [atomH000] ∧
    extract_coordinates c2exFile ≠ [] := by decide

/-- C2 (amended): the first geometry block in document order that yields at
least one parsed coordinate provides the result; a block yielding no
coordinates is passed over, so when the first block parses to nothing and
the second parses to a nonempty list, extraction returns the second
block's coordinates. -/
theorem c2_amended (content : Str) (b1 b2 : Str) (rest : List Str)
    (hblocks : molproGo content = b1 :: b2 :: rest)
    (h1 : parseMolproBlock b1 = [])
    (h2 : parseMolproBlock b2 ≠ []) :
    extract_from_molpro_file content = parseMolproBlock b2 := by
  unfold extract_from_molpro_file
  rw [hblocks]
  rw [show molproFirst (b1 :: b2 :: rest) =
    (if (parseMolproBlock b1).isEmpty then molproFirst (b2 :: rest)
     else parseMolproBlock b1) from rfl]
  rw [h1]
  simp only [List.isEmpty_nil, if_true]
  rw [show molproFirst (b2 :: rest) =
    (if (parseMolproBlock b2).isEmpty then molproFirst rest
     else parseMolproBlock b2) from rfl]
  have hne : (parseMolproBlock b2).isEmpty = false := by
    cases hx : parseMolproBlock b2 with
    | nil => exact absurd hx h2
    | cons _ _ => rfl
  rw [hne]
  simp

theorem c2_witness :
    extract_from_molpro_file c2exContent = parseMolproBlock (str "\nH 0. 0. 0.\n") :=
  c2_amended c2exContent (str "\nq\n") (str "\nH 0. 0. 0.\n") []
    (by decide) (by decide) (by decide)

/-- C7 (confirmed): the Gaussian-input strategy scans for the first line
whose stripped text matches the charge/multiplicity pattern (two optionally
signed integers); if none exists the result is empty, otherwise coordinate
lines are parsed starting just after that line and collection stops at the
first blank or unparseable line. -/
theorem c7_input_strategy (content : Str) :
    (findChgMult (splitLines content) = none →
      extract_from_input_file content = []) ∧
    (∀ i, findChgMult (splitLines content) = some i →
      i < (splitLines content).length ∧
      looksLikeChargeMult (pyStrip ((splitLines content).getD i [])) = true ∧
      (∀ j, j < i →
        looksLikeChargeMult (pyStrip ((splitLines content).getD j [])) = false) ∧
      extract_from_input_file content =
        (((splitLines content).drop (i + 1)).takeWhile goodInputLine).filterMap
          (fun l => parse_input_coordinate_line (pyStrip l))) := by
  constructor
  · intro h
    simp only [extract_from_input_file]
    rw [h]
  · intro i hi
    obtain ⟨h1, h2, h3⟩ := findChgMult_first _ i hi
    refine ⟨h1, h2, h3, ?_⟩
    simp only [extract_from_input_file]
    rw [hi]
    exact collectInputCoords_takeWhile _

def c7exContent : Str :=
  str "%chk=test\ntitle\n\n0 1\nC 0. 0. 0.\nH 0. 0. 1.1\n\nbasis"

theorem c7_witness :
    findChgMult (splitLines c7exContent) = some 3 ∧
    extract_from_input_file c7exContent =
      (((splitLines c7exContent).drop 4).takeWhile goodInputLine).filterMap
        (fun l => parse_input_coordinate_line (pyStrip l)) :=
  ⟨by decide, ((c7_input_strategy c7exContent).2 3 (by decide)).2.2.2⟩

/-- C4 (confirmed): the standard-orientation strategy locates the LAST
occurrence of the case-insensitive `standard orientation:` marker (the
retained suffix contains no further marker), and parses exactly the lines
strictly between the second and third dash-delimiter lines that follow it;
if no marker occurs the result is empty. -/
theorem c4_std_orientation (content : Str) :
    (lastStdOrientSuffix content = none →
      hasStdOrientMarker content = false ∧
      extract_from_standard_orientation content = []) ∧
    (∀ rest, lastStdOrientSuffix content = some rest →
      hasStdOrientMarker rest = false ∧
      extract_from_standard_orientation content =
        (zone2 (splitLines rest)).filterMap
          (fun l => parse_coordinate_line (pyStrip l))) := by
  constructor
  · intro h
    have h2 : lastStdOrientGo content none = none := h
    refine ⟨(lastStdOrientGo_none_iff content).mp h2, ?_⟩
    unfold extract_from_standard_orientation
    rw [h]
  · intro rest h
    refine ⟨lastStdOrientSuffix_no_marker h, ?_⟩
    unfold extract_from_standard_orientation
    rw [h]
    exact stdLoop_zone2 _

def c4exRest : Str :=
  str "\n ---------------------\n hdr\n ---------------------\n 1 1 0 0.5 0.5 0.5\n ---------------------\nend"

def c4exContent : Str :=
  str "junk\nStandard orientation:\n ---------------------\n hdr\n ---------------------\n 1 6 0 0.0 0.0 1.1\n ---------------------\nmid\nSTANDARD  ORIENTATION:" ++ c4exRest

set_option maxRecDepth 100000 in
theorem c4_witness :
    lastStdOrientSuffix c4exContent = some c4exRest ∧
    (hasStdOrientMarker c4exRest = false ∧
     extract_from_standard_orientation c4exContent =
       (zone2 (splitLines c4exRest)).filterMap
         (fun l => parse_coordinate_line (pyStrip l))) :=
  ⟨by decide, (c4_std_orientation c4exContent).2 c4exRest (by decide)⟩

/-- C8 (confirmed): the termination check reads at most the final 1000
bytes of the file (the examined chunk is a suffix of the content with
length at most 1000), fails when that read fails, and otherwise succeeds
exactly when the last non-blank line of the chunk contains the phrase
`Normal termination`. -/
theorem c8_normal_termination :
    check_normal_termination none = false ∧
    (∀ chunk : Str, check_normal_termination (some chunk) = true ↔
      ∃ L, lastNonBlankLine chunk = some L ∧ containsSub needleNT L = true) ∧
    (∀ c : Str, (tailChunk c).length ≤ 1000 ∧ ∃ pre, c = pre ++ tailChunk c) := by
  refine ⟨rfl, checkNT_iff, fun c => ⟨?_, ?_⟩⟩
  · simp only [tailChunk, List.length_drop]
    omega
  · exact ⟨c.take (c.length - min 1000 c.length), (List.take_append_drop _ c).symm⟩

theorem c8_witness :
    check_normal_termination (some (str " Normal termination of Gaussian 16\n\n")) = true :=
  (c8_normal_termination.2.1 (str " Normal termination of Gaussian 16\n\n")).mpr
    ⟨str " Normal termination of Gaussian 16", by decide, by decide⟩

/-- C10 (confirmed): the exception-explicit model, in which the unguarded
indexing `punch_sections[3]` may raise, never raises: the preceding length
check guards it on every input, so the exception-free model computes the
same result. -/
theorem c10_no_unhandled_index (f : FileModel) :
    extract_coordinatesE f = Except.ok (extract_coordinates f) := by
  unfold extract_coordinatesE extract_coordinates
  cases f.content with
  | none => rfl
  | some c =>
    cases detect_file_type f.ext with
    | gaussian_input => rfl
    | gaussian_log =>
      simp only []
      cases check_normal_termination f.tailRead with
      | true =>
        simp only [if_true]
        rw [extract_from_punchE_ok]
      | false => rfl
    | molpro => rfl
    | unknown => rfl

theorem extract_from_punch_c1 (c p : Str) (hp : find_punch_string c = some p)
    (hsecs : 4 ≤ (splitOnDBS (stripWS p)).length)
    (hsec3 : (splitOnDBS (stripWS p)).getD 3 [] = str "C,0.,0.,1.1\\H,0.,0.,0.") :
    extract_from_punch c = [atomC11, atomH000] := by
  unfold extract_from_punch
  rw [hp]
  show (if (splitOnDBS (stripWS p)).length < 4 then [] else
        if ((splitOnDBS (stripWS p)).getD 3 []).isEmpty then []
        else parsePunchEntries (splitOnChar '\\' ((splitOnDBS (stripWS p)).getD 3 []))) =
      [atomC11, atomH000]
  rw [if_neg (by omega), hsec3]
  decide

/-- C1 (amended): for a `.log` file whose punch string has at least four
double-backslash sections with section 3 exactly `C,0.,0.,1.1\H,0.,0.,0.`,
extraction returns `[C at (0,0,1.1), H at (0,0,0)]` and never consults the
standard-orientation sub-strategy, PROVIDED the `Normal termination` test
holds on the view the checker actually examines: the last non-blank line of
the final at-most-1000-byte tail (not of the whole content). -/
theorem c1_amended (f : FileModel) (c p : Str)
    (hext : f.ext = str ".log") (hc : f.content = some c)
    (ht : f.tailRead = some (tailChunk c))
    (hterm : ∃ L, lastNonBlankLine (tailChunk c) = some L ∧
      containsSub needleNT L = true)
    (hp : find_punch_string c = some p)
    (hsecs : 4 ≤ (splitOnDBS (stripWS p)).length)
    (hsec3 : (splitOnDBS (stripWS p)).getD 3 [] = str "C,0.,0.,1.1\\H,0.,0.,0.") :
    extract_coordinates f = [atomC11, atomH000] ∧
    (extractCoordinatesI f).2 = false := by
  obtain ⟨fe, fc, ftr⟩ := f
  dsimp only at hext hc ht
  subst hext
  subst hc
  subst ht
  have hpn : extract_from_punch c = [atomC11, atomH000] :=
    extract_from_punch_c1 c p hp hsecs hsec3
  have hck : check_normal_termination (some (tailChunk c)) = true :=
    (checkNT_iff (tailChunk c)).mpr hterm
  constructor
  · show (if check_normal_termination (some (tailChunk c)) then
           (if (extract_from_punch c).isEmpty then extract_from_standard_orientation c
            else extract_from_punch c)
          else extract_from_standard_orientation c) = [atomC11, atomH000]
    rw [if_pos hck, hpn]
    rfl
  · show ((if check_normal_termination (some (tailChunk c)) then
           (if (extract_from_punch c).isEmpty then (extract_from_standard_orientation c, true)
            else (extract_from_punch c, false))
          else (extract_from_standard_orientation c, true)) : List AtomCoordinate × Bool).2 = false
    rw [if_pos hck, hpn]
    rfl

def c1exPunch : Str := str "x\\\\y\\\\z\\\\C,0.,0.,1.1\\H,0.,0.,0.\\\\@"

set_option maxRecDepth 100000 in
theorem c1_witness :
    extract_coordinates c1exFile = [atomC11, atomH000] ∧
    (extractCoordinatesI c1exFile).2 = false :=
  c1_amended c1exFile c1exContent c1exPunch rfl rfl rfl
    ⟨str "Normal termination of Gaussian 16", by decide, by decide⟩
    (by decide) (by decide) (by decide)

theorem splitLines_single (s : Str) (h : ∀ c ∈ s, c ≠ '\n') : splitLines s = [s] := by
  induction s with
  | nil => rfl
  | cons c cs ih =>
    rw [splitLines_cons, if_neg (h c (List.mem_cons_self c cs)),
      ih (fun x hx => h x (List.mem_cons_of_mem c hx))]
    rfl

theorem containsSub_all_y (l : Str) (h : ∀ c ∈ l, c = 'y') :
    containsSub needleNT l = false := by
  induction l with
  | nil => exact containsSub_nil_false _ needleNT_ne_nil
  | cons c cs ih =>
    rw [containsSub_cons]
    have hc : c = 'y' := h c (List.mem_cons_self c cs)
    subst hc
    have hp : needleNT.isPrefixOf ('y' :: cs) = false := rfl
    rw [hp]
    simp only [Bool.false_or]
    exact ih (fun x hx => h x (List.mem_cons_of_mem 'y' hx))

theorem check_all_y (s : Str) (h : ∀ c ∈ s, c = 'y') :
    check_normal_termination (some s) = false := by
  rw [show check_normal_termination (some s) =
    containsSub needleNT (pyLastLine (splitLines (pyStrip s))) from rfl]
  have hm : ∀ c ∈ pyStrip s, c = 'y' := fun c hc => h c (mem_pyStrip s c hc)
  rw [splitLines_single (pyStrip s) (fun c hc => by rw [hm c hc]; decide)]
  show containsSub needleNT (pyStrip s) = false
  exact containsSub_all_y _ hm

theorem tailChunk_mem (a b : Str) (hb : 1000 ≤ b.length) :
    ∀ c ∈ tailChunk (a ++ b), c ∈ b := by
  intro c hc
  unfold tailChunk at hc
  rw [List.length_append] at hc
  have hmin : min 1000 (a.length + b.length) = 1000 := by omega
  rw [hmin] at hc
  have he : a.length + b.length - 1000 = a.length + (b.length - 1000) := by omega
  rw [he, ← List.drop_drop, List.drop_left] at hc
  exact List.mem_of_mem_drop hc

theorem c1cex_chunk_y : ∀ c ∈ tailChunk c1cexContent, c = 'y' := by
  intro c hc
  have hrw : c1cexContent =
      (c1cexPre ++ '\n' :: str "Normal termination seen early ") ++ c1cexYs := by
    show c1cexPre ++ (('\n' :: str "Normal termination seen early ") ++ c1cexYs) = _
    rw [List.append_assoc]
  rw [hrw] at hc
  have hlen : 1000 ≤ c1cexYs.length := by
    show (1000 : Nat) ≤ (List.replicate 1100 'y').length
    rw [List.length_replicate]
    omega
  have hy : c ∈ c1cexYs := tailChunk_mem _ c1cexYs hlen c hc
  exact List.eq_of_mem_replicate (show c ∈ List.replicate 1100 'y' from hy)

theorem c1cex_check : check_normal_termination (some (tailChunk c1cexContent)) = false :=
  check_all_y _ c1cex_chunk_y

set_option maxRecDepth 1000000 in
theorem c1cex_no_marker : hasStdOrientMarker c1cexContent = false := by decide

theorem c1cex_lastNB : lastNonBlankLine c1cexContent = some c1cexLastLine := by
  unfold lastNonBlankLine
  rw [show c1cexContent = c1cexPre ++ '\n' :: c1cexLastLine from rfl]
  rw [splitLines_append_newline]
  have hnl : ∀ c ∈ c1cexLastLine, c ≠ '\n' := by
    intro c hc hceq
    rcases List.mem_append.mp hc with h | h
    · subst hceq
      exact absurd h (by decide)
    · have hy : c = 'y' := List.eq_of_mem_replicate h
      subst hceq
      exact absurd hy (by decide)
  rw [splitLines_single c1cexLastLine hnl, lastNB_append]
  rw [show c1cexLastLine.all pyIsSpace = false from rfl]
  rw [if_neg Bool.false_ne_true]

/-- C1 (counterexample): a `.log` file whose last non-empty line DOES
contain `Normal termination` and whose punch string is well formed with
section 3 exactly `C,0.,0.,1.1\H,0.,0.,0.`, yet the termination checker
returns false and the standard-orientation sub-strategy IS consulted,
making extraction return the empty list: the final line is longer than
1000 bytes, so the phrase lies outside the tail the checker reads. -/
theorem c1_counterexample :
    lastNonBlankLine c1cexContent = some c1cexLastLine ∧
    containsSub needleNT c1cexLastLine = true ∧
    find_punch_string c1cexContent = some c1cexPunch ∧
    4 ≤ (splitOnDBS (stripWS c1cexPunch)).length ∧
    (splitOnDBS (stripWS c1cexPunch)).getD 3 [] = str "C,0.,0.,1.1\\H,0.,0.,0." ∧
    check_normal_termination c1cexFile.tailRead = false ∧
    (extractCoordinatesI c1cexFile).2 = true ∧
    extract_coordinates c1cexFile = [] := by
  refine ⟨c1cex_lastNB, by decide, by decide, by decide, by decide, c1cex_check, ?_, ?_⟩
  · show ((if check_normal_termination (some (tailChunk c1cexContent)) then
           (if (extract_from_punch c1cexContent).isEmpty then
             (extract_from_standard_orientation c1cexContent, true)
            else (extract_from_punch c1cexContent, false))
          else (extract_from_standard_orientation c1cexContent, true)) :
         List AtomCoordinate × Bool).2 = true
    rw [if_neg (by rw [c1cex_check]; exact Bool.false_ne_true)]
  · show (if check_normal_termination (some (tailChunk c1cexContent)) then
           (if (extract_from_punch c1cexContent).isEmpty then
             extract_from_standard_orientation c1cexContent
            else extract_from_punch c1cexContent)
          else extract_from_standard_orientation c1cexContent) = []
    rw [if_neg (by rw [c1cex_check]; exact Bool.false_ne_true)]
    unfold extract_from_standard_orientation
    rw [show lastStdOrientSuffix c1cexContent = none from
      (lastStdOrientGo_none_iff c1cexContent).mpr c1cex_no_marker]
